import Mathlib

/-!
Verification of the Biovoltron sequence library.

The development covers two groups of components:

* components whose sources are present in the repository: the CIGAR string
  type (`Cigar`), the genomic `Interval` type, and the SAM utility
  `compute_tlen`; their Lean definitions below are shallow embeddings of
  the C++ sources;
* the symbol codec and the FM-index engine, whose implementation files are
  not part of the repository snapshot (only the tutorial and the
  specification describe them); the corresponding definitions are
  modelled from the specification text and are marked as such in their
  doc comments.

Machine integers are modelled as natural numbers with explicit reduction
modulo 2^32 (unsigned) or 2^64 (unsigned long) at the points where the
source converts or wraps.
-/

namespace Biovoltron

/-! ### Symbol codec (modelled from the spec) -/

/-- Nucleotide symbol in the two-bit encoding: A=0, C=1, G=2, T=3. -/
abbrev Sym := Fin 4

/-- Modelled from the spec (the Codec component is absent from the
repository snapshot): complement of one two-bit symbol, A maps to T and
C maps to G and conversely, i.e. the value 3 - c. -/
def comp (c : Sym) : Sym := ⟨3 - c.val, by omega⟩

/-- Modelled from the spec: Codec rev_comp, reversing the sequence and
complementing every symbol; a pure function of its input. -/
def rev_comp (s : List Sym) : List Sym := (s.map comp).reverse

/-- Modelled from the spec: Codec hash, the base-4 positional integer
encoding of a k-mer (first symbol most significant), accumulated in a
64-bit unsigned word. -/
def hash (s : List Sym) : Nat :=
  s.foldl (fun h c => (h * 4 + c.val) % 18446744073709551616) 0

/-- Mathematical base-4 value of a k-mer with no 64-bit truncation; this is
the k-mer integer encoding used to index the lookup table. -/
def khash (s : List Sym) : Nat := s.foldl (fun h c => h * 4 + c.val) 0

/-- Modelled from the spec: Codec rhash, recovering the k-mer of the given
length from its base-4 integer encoding. -/
def rhash : Nat → Nat → List Sym
  | _, 0 => []
  | v, k + 1 => rhash (v / 4) k ++ [⟨v % 4, Nat.mod_lt _ (by omega)⟩]

/-- Tutorial k-mer 12031 used as a concrete example. -/
def kmer12031 : List Sym := [1, 2, 0, 3, 1]

/-! ### CIGAR strings (embedded from the source file defining Cigar) -/

/-- Element of a CIGAR string: an operation count (stored in a 32-bit
unsigned field in the source, modelled as a natural number which is
reduced modulo 2^32 wherever the source stores it) and an operation
character. -/
structure Element where
  size : Nat
  op : Char
  deriving DecidableEq

/-- Models the inner digit-accumulation loop of Cigar to_elements: the
running size accumulates decimal digits; the arithmetic is performed on a
32-bit unsigned quantity and is therefore reduced modulo 2^32 at each
step (the source accumulates in int and converts to the unsigned field,
which agrees with two's-complement wraparound for the sizes concerned).
Returns the accumulated size and the unconsumed remainder of the
string. -/
def parseSize (size : Nat) : List Char → Nat × List Char
  | [] => (size, [])
  | c :: cs =>
    if c.isDigit then parseSize ((size * 10 + (c.toNat - 48)) % 4294967296) cs
    else (size, c :: cs)

/-- Auxiliary bound used for the termination of to_elements. -/
theorem parseSize_length (size : Nat) (l : List Char) :
    (parseSize size l).2.length ≤ l.length := by
  induction l generalizing size with
  | nil => simp [parseSize]
  | cons c cs ih =>
    by_cases h : c.isDigit
    · simp only [parseSize, h, if_true]
      exact le_trans (ih _) (by simp)
    · simp [parseSize, h]

/-- Fuel-driven loop body of Cigar to_elements (the fuel only serves to
make the recursion structural; any fuel exceeding the string length gives
the loop's value). Each round reads a size (the first character is treated
as a digit unconditionally, exactly as in the source) followed by the
operation character. When the string ends right after the digits the
source reads one character past the end of the string_view, which is
undefined behaviour; that case is modelled by emitting a null operation
character and never arises for well-formed input. -/
def to_elementsAux : Nat → List Char → List Element
  | 0, _ => []
  | _ + 1, [] => []
  | fuel + 1, c :: cs =>
    let p := parseSize ((c.toNat - 48) % 4294967296) cs
    if hne : p.2 = [] then [⟨p.1, Char.ofNat 0⟩]
    else ⟨p.1, p.2.head hne⟩ :: to_elementsAux fuel p.2.tail

/-- Models Cigar to_elements. -/
def to_elements (l : List Char) : List Element := to_elementsAux (l.length + 1) l

/-- Fuel-driven digit producer for the decimal representation (the fuel
only makes the recursion structural). -/
def toDecAux : Nat → Nat → List Char
  | 0, _ => []
  | fuel + 1, n =>
    if n < 10 then [Char.ofNat (48 + n)]
    else toDecAux fuel (n / 10) ++ [Char.ofNat (48 + n % 10)]

/-- Decimal representation of a natural number, most significant digit
first and with no leading zero; models std::to_string applied to the
unsigned size. -/
def toDec (n : Nat) : List Char := toDecAux (n + 1) n

/-- Models Cigar Element operator std::string: the decimal size followed by
the operation character. -/
def Element.toChars (e : Element) : List Char := toDec e.size ++ [e.op]

/-- Models Cigar operator std::string: concatenation of the element
strings. -/
def cigarString : List Element → List Char
  | [] => []
  | e :: es => e.toChars ++ cigarString es

/-! ### Genomic intervals (embedded from the source file defining Interval) -/

/-- Genomic interval record with the fields of the source struct; the end
field is named iend because end is reserved in Lean. Positions are 32-bit
unsigned in the source. -/
structure Interval where
  chrom : List Char
  begin : Nat
  iend : Nat
  strand : Char
  deriving DecidableEq

/-- Models the four-argument Interval constructor: it validates the strand
symbol and then the ordering of begin and end, throwing
std::invalid_argument (modelled as Except.error) on violation. -/
def Interval.mk4 (chrom : List Char) (b e : Nat) (strand : Char) :
    Except String Interval :=
  if strand ≠ '+' ∧ strand ≠ '-' then .error "invalid strand symbol"
  else if e < b then .error "invalid end must not be less than begin"
  else .ok ⟨chrom, b, e, strand⟩

/-- Digit-accumulation loop of std::stoul on an unsigned long (64-bit,
modulo 2^64). -/
def stoulDigits (acc : Nat) : List Char → Nat
  | [] => acc
  | c :: cs =>
    if c.isDigit then stoulDigits ((acc * 10 + (c.toNat - 48)) % 18446744073709551616) cs
    else acc

/-- Models std::stoul: skip leading whitespace, accept an optional sign,
then accumulate decimal digits into an unsigned long; errors when no digit
follows, as std::stoul throws std::invalid_argument there. A leading minus
negates the value modulo 2^64. -/
def stoul (s : List Char) : Except String Nat :=
  let s1 := s.dropWhile Char.isWhitespace
  let p : Bool × List Char :=
    match s1 with
    | '-' :: cs => (true, cs)
    | '+' :: cs => (false, cs)
    | cs => (false, cs)
  match p.2 with
  | c :: cs =>
    if c.isDigit then
      let v := stoulDigits 0 (c :: cs)
      .ok (if p.1 then (18446744073709551616 - v) % 18446744073709551616 else v)
    else .error "stoul"
  | [] => .error "stoul"

/-- Models Interval parse_string: an optional leading strand sign, then
either a bare chromosome name (begin 0, end UINT32_MAX) or a colon
followed by positions with thousands separators removed; stoul results are
truncated modulo 2^32 when assigned to the 32-bit fields. Calling front()
on an empty string is undefined behaviour in the source and is modelled as
an error. -/
def parse_string : List Char → Except String Interval
  | [] => .error "undefined behaviour: front of empty string"
  | c :: rest =>
    let strand0 : Char := if c = '+' ∨ c = '-' then c else '+'
    let ivStr : List Char := if c = '+' ∨ c = '-' then rest else c :: rest
    match ivStr.findIdx? (fun x => x = ':') with
    | none => .ok ⟨ivStr, 0, 4294967295, strand0⟩
    | some colon =>
      let chrom := ivStr.take colon
      let remain := (ivStr.drop (colon + 1)).filter (fun x => x ≠ ',')
      match stoul remain with
      | .error e => .error e
      | .ok b64 =>
        let b := b64 % 4294967296
        match remain.findIdx? (fun x => x = '-') with
        | none =>
          if hr : remain = [] then .error "undefined behaviour: back of empty string"
          else if remain.getLast hr = '+' then .ok ⟨chrom, b, 4294967295, strand0⟩
          else .ok ⟨chrom, b, (b + 1) % 4294967296, strand0⟩
        | some dash =>
          match stoul (remain.drop (dash + 1)) with
          | .error e => .error e
          | .ok e64 => .ok ⟨chrom, b, e64 % 4294967296, strand0⟩

/-- Models the string-parsing Interval constructor: parse the string with
parse_string, then reject the result when end is less than begin. -/
def Interval.ofString (s : List Char) : Except String Interval :=
  match parse_string s with
  | .error e => .error e
  | .ok r => if r.iend < r.begin then .error "invalid interval string" else .ok r

/-! ### SAM utilities (embedded from sam.hpp) -/

/-- Orientation of a read pair, as in SamUtil. -/
inductive Orientation
  | FR
  | FF
  | RR
  | RF
  deriving DecidableEq

/-- Models SamUtil compute_ori. -/
def compute_ori (read_forward mate_forward : Bool) : Orientation :=
  if read_forward ≠ mate_forward then (if read_forward then .FR else .RF)
  else (if read_forward then .FF else .RR)

/-- Models Cigar ref_size: the summed sizes of elements whose operation
consumes reference bases (M, D, N, =, X). -/
def ref_size (es : List Element) : Nat :=
  es.foldl
    (fun a e =>
      if e.op = 'M' ∨ e.op = 'D' ∨ e.op = 'N' ∨ e.op = '=' ∨ e.op = 'X' then a + e.size else a)
    0

/-- Models Cigar read_size: the summed sizes of elements whose operation
consumes read bases (M, I, S, =, X). -/
def read_size (es : List Element) : Nat :=
  es.foldl
    (fun a e =>
      if e.op = 'M' ∨ e.op = 'I' ∨ e.op = 'S' ∨ e.op = '=' ∨ e.op = 'X' then a + e.size else a)
    0

/-- Direct (non-swapped) branch of SamUtil compute_tlen. The source's
recursive call, taken when read_pos exceeds mate_pos, always lands in this
branch, so the one-deep recursion is unfolded here. Positions are int32 in
the source; the arithmetic is modelled over the unbounded integers. -/
def compute_tlen_direct (read_pos : Int) (read_cigar : List Element)
    (read_forward : Bool) (mate_pos : Int) (mate_cigar : List Element)
    (mate_forward : Bool) : Int :=
  match compute_ori read_forward mate_forward with
  | .FR => mate_pos + (ref_size mate_cigar : Int) - read_pos
  | .FF =>
    let tlen := mate_pos + (read_size mate_cigar : Int)
      - (read_pos + (read_size read_cigar : Int))
    if tlen ≠ 0 then tlen + (if tlen > 0 then 1 else -1) else 0
  | .RR =>
    let tlen := mate_pos + (ref_size mate_cigar : Int)
      - (read_pos + (ref_size read_cigar : Int))
    if tlen ≠ 0 then tlen + (if tlen > 0 then 1 else -1) else 0
  | .RF =>
    let tlen := mate_pos - (read_pos + (ref_size read_cigar : Int)) + 1
    if tlen ≠ 0 then tlen + (if tlen > 0 then 1 else -1) else 0

/-- Models SamUtil compute_tlen: when the read starts after the mate the
result is the negated value for the swapped arguments, otherwise the
orientation-directed direct computation. -/
def compute_tlen (read_pos : Int) (read_cigar : List Element) (read_forward : Bool)
    (mate_pos : Int) (mate_cigar : List Element) (mate_forward : Bool) : Int :=
  if read_pos > mate_pos then
    - compute_tlen_direct mate_pos mate_cigar mate_forward read_pos read_cigar read_forward
  else compute_tlen_direct read_pos read_cigar read_forward mate_pos mate_cigar mate_forward

/-! ### FM-index engine (modelled from the spec; the engine sources are not
in the repository snapshot) -/

/-- Strict lexicographic order on symbol sequences in which a proper prefix
is smaller than its extensions; this models the order of sentinel-terminated
suffixes, the sentinel comparing below every symbol. -/
def lexLt : List Sym → List Sym → Bool
  | [], [] => false
  | [], _ :: _ => true
  | _ :: _, [] => false
  | a :: as, b :: bs =>
    if a.val < b.val then true
    else if b.val < a.val then false
    else lexLt as bs

/-- Suffix comparison used to sort the suffix array: position i precedes
position j when the suffix at j is not strictly below the suffix at i. -/
def suffLE (S : List Sym) (i j : Nat) : Prop := lexLt (S.drop j) (S.drop i) = false

instance (S : List Sym) : DecidableRel (suffLE S) := fun _ _ =>
  instDecidableEqBool _ false

/-- Modelled from the spec: the Suffix Array Builder produces the
permutation of positions 0..N (N standing for the empty sentinel suffix)
ordered by the lexicographic order of the suffix starting at each
position; the spec's parallel bucket construction concerns performance of
the sort, so the model sorts directly. -/
def sa (S : List Sym) : List Nat := (List.range (S.length + 1)).insertionSort (suffLE S)

/-- Symbol value of the sequence at a position, 4 standing for
out-of-range (the sentinel). -/
def symAt (S : List Sym) (i : Nat) : Nat :=
  match S[i]? with
  | some c => c.val
  | none => 4

/-- Symbol preceding a suffix position in the original sequence, with the
value 4 marking the sentinel row (suffix position 0). -/
def bwtAt (S : List Sym) (j : Nat) : Nat := if j = 0 then 4 else symAt S (j - 1)

/-- Modelled from the spec: the Burrows-Wheeler transform, with BWT row i
holding the symbol immediately preceding suffix-array position i and a
distinguished sentinel value where the suffix-array value is 0. -/
def bwt (S : List Sym) : List Nat := (sa S).map (bwtAt S)

/-- Modelled from the spec: the rank query, counting the occurrences of a
symbol in the BWT prefix of the given length. -/
def rank (S : List Sym) (c : Nat) (i : Nat) : Nat :=
  ((bwt S).take i).countP (fun x => x == c)

/-- Modelled from the spec: the count of symbols lexicographically below c
in the indexed text, the sentinel included. -/
def cLess (S : List Sym) (c : Nat) : Nat := 1 + S.countP (fun a => decide (a.val < c))

/-- Number of suffixes strictly below the pattern; this is the begin bound
of the pattern's suffix-array interval. -/
def cntLt (S : List Sym) (p : List Sym) : Nat :=
  (List.range (S.length + 1)).countP (fun i => lexLt (S.drop i) p)

/-- Number of suffixes strictly below the pattern or extending it; this is
the end bound of the pattern's suffix-array interval. -/
def cntLe (S : List Sym) (p : List Sym) : Nat :=
  (List.range (S.length + 1)).countP (fun i => lexLt (S.drop i) p || p.isPrefixOf (S.drop i))

/-- Number of suffix positions (0..N) at which the query occurs as a
prefix of the suffix. -/
def occCount (S q : List Sym) : Nat :=
  (List.range (S.length + 1)).countP (fun i => q.isPrefixOf (S.drop i))

/-- Errors of the FM-index engine named by the spec. -/
inductive FmErr
  | unsupportedMismatchCount
  | corruptIndex
  deriving DecidableEq

/-- Modelled from the spec: one backward-search step, narrowing both
interval bounds through the rank query and the symbol-count offsets. -/
def stepIv (S : List Sym) (c : Sym) (b e : Nat) : Nat × Nat :=
  (cLess S c.val + rank S c.val b, cLess S c.val + rank S c.val e)

/-- Modelled from the spec: the backward-search loop of FMIndex get_range;
query symbols are supplied last-to-first; when a step empties the interval
the loop stops and returns the interval from the step before the collapse
together with the count of symbols matched so far. -/
def searchGo (S : List Sym) : List Sym → Nat → Nat → Nat → Nat × Nat × Nat
  | [], b, e, m => (b, e, m)
  | c :: rest, b, e, m =>
    let be := stepIv S c b e
    if be.2 ≤ be.1 then (b, e, m)
    else searchGo S rest be.1 be.2 (m + 1)

/-- Modelled from the spec: FMIndex get_range(query, allowed_mismatches).
A mismatch count of zero performs pure exact backward search from the full
interval; nonzero mismatch counts are unsupported and rejected with
UnsupportedMismatchCountError. -/
def get_range (S : List Sym) (q : List Sym) (allowed_mismatches : Nat) :
    Except FmErr (Nat × Nat × Nat) :=
  if allowed_mismatches ≠ 0 then .error .unsupportedMismatchCount
  else .ok (searchGo S q.reverse 0 (S.length + 1) 0)

/-- Modelled from the spec: FMIndex get_offsets under the spec's default
configuration (suffix-array sampling interval 1, all values retained), so
each row in the interval yields its suffix-array value directly. -/
def get_offsets (S : List Sym) (b e : Nat) : List Nat := ((sa S).take e).drop b

/-- Two-bit encoding of the tutorial sequence GATTACA. -/
def gattaca : List Sym := [2, 0, 3, 3, 0, 1, 0]

/-- Two-bit encoding of the query ATT. -/
def attQ : List Sym := [0, 3, 3]

/-- Two-bit encoding of the query TTT, which does not occur in GATTACA. -/
def tttQ : List Sym := [3, 3, 3]

/-- Build-time configuration of the FM-index: coarse and fine occurrence
checkpoint intervals, suffix-array sampling interval and lookup k-mer
length. -/
structure FmConfig where
  l1 : Nat
  l2 : Nat
  saIntv : Nat
  lookupLen : Nat
  deriving DecidableEq

/-- Modelled from the spec: the immutable aggregate of the four
substructures plus N and the configuration. All arrays are flat lists of
natural numbers: the BWT uses 0..3 for symbols and 4 for the sentinel; the
occurrence tables store four counts per checkpoint; the sampled suffix
array stores value plus one at sampled rows and 0 elsewhere; the lookup
table stores the pair begin, end for each k-mer. -/
structure FMIndex where
  n : Nat
  cfg : FmConfig
  bwtArr : List Nat
  cArr : List Nat
  occ1 : List Nat
  occ2 : List Nat
  ssa : List Nat
  lookup : List Nat
  deriving DecidableEq

/-- Modelled from the spec: FMIndex build, assembling the BWT, the
two-level occurrence table (coarse checkpoints every l1 positions with
exact cumulative counts per symbol, fine checkpoints every l2 positions
with counts relative to the nearest coarse checkpoint), the sampled
suffix array (values at the configured interval retained) and the k-mer
lookup table (the suffix-array interval of every k-mer of the configured
length, indexed by its integer encoding). -/
def build (S : List Sym) (cfg : FmConfig) : FMIndex :=
  { n := S.length
    cfg := cfg
    bwtArr := bwt S
    cArr := (List.range 4).map (fun c => cLess S c)
    occ1 := (List.range (((S.length + 1) / cfg.l1 + 1) * 4)).map
      (fun j => rank S (j % 4) (j / 4 * cfg.l1))
    occ2 := (List.range (((S.length + 1) / cfg.l2 + 1) * 4)).map
      (fun j => rank S (j % 4) (j / 4 * cfg.l2)
        - rank S (j % 4) (j / 4 * cfg.l2 / cfg.l1 * cfg.l1))
    ssa := (List.range (S.length + 1)).map
      (fun k => if ((sa S).getD k 0) % cfg.saIntv = 0 then (sa S).getD k 0 + 1 else 0)
    lookup := (List.range (4 ^ cfg.lookupLen * 2)).map
      (fun j => if j % 2 = 0 then cntLt S (rhash (j / 2) cfg.lookupLen)
        else cntLe S (rhash (j / 2) cfg.lookupLen)) }

/-- Modelled from the spec: the rank query answered from the hierarchical
occurrence table: coarse checkpoint plus fine checkpoint plus a residual
scan of fewer than l2 BWT symbols. -/
def FMIndex.rankT (I : FMIndex) (c : Nat) (i : Nat) : Nat :=
  I.occ1.getD (i / I.cfg.l1 * 4 + c) 0
  + I.occ2.getD (i / I.cfg.l2 * 4 + c) 0
  + ((I.bwtArr.drop (i / I.cfg.l2 * I.cfg.l2)).take (i - i / I.cfg.l2 * I.cfg.l2)).countP
      (fun x => x == c)

/-- Modelled from the spec: the LF-mapping step used to decode unsampled
suffix-array entries, following the BWT symbol of the row back through the
rank query; the sentinel row is never followed because it is always
sampled. -/
def FMIndex.lfT (I : FMIndex) (k : Nat) : Nat :=
  let c := I.bwtArr.getD k 4
  if c < 4 then I.cArr.getD c 0 + I.rankT c k else 0

/-- Modelled from the spec: the walk-back loop of get_offsets, following
the LF-mapping until a sampled slot is reached and adding the step count
to the sampled value; the fuel only bounds the structural recursion, and
on a built index the walk always ends within n+1 steps. -/
def FMIndex.walk (I : FMIndex) : Nat → Nat → Nat → Option Nat
  | 0, _, _ => none
  | fuel + 1, k, t =>
    let x := I.ssa.getD k 0
    if x ≠ 0 then some (x - 1 + t) else I.walk fuel (I.lfT k) (t + 1)

/-- Modelled from the spec: FMIndex get_offsets over the built tables,
decoding each row of the interval through the walk-back loop. -/
def FMIndex.get_offsets (I : FMIndex) (b e : Nat) : List Nat :=
  (List.range' b (e - b)).map (fun k => (I.walk (I.n + 1) k 0).getD 0)

/-- Backward-search loop over the built tables, with the rank query
answered from the occurrence table. -/
def FMIndex.searchGoT (I : FMIndex) : List Sym → Nat → Nat → Nat → Nat × Nat × Nat
  | [], b, e, m => (b, e, m)
  | c :: rest, b, e, m =>
    let b2 := I.cArr.getD c.val 0 + I.rankT c.val b
    let e2 := I.cArr.getD c.val 0 + I.rankT c.val e
    if e2 ≤ b2 then (b, e, m)
    else I.searchGoT rest b2 e2 (m + 1)

/-- Modelled from the spec: FMIndex get_range over the built tables, with
the k-mer lookup fast path taken when the query tail of the configured
length matches (its table interval is nonempty) and the plain backward
search used otherwise. -/
def FMIndex.get_range (I : FMIndex) (q : List Sym) (allowed_mismatches : Nat) :
    Except FmErr (Nat × Nat × Nat) :=
  if allowed_mismatches ≠ 0 then .error .unsupportedMismatchCount
  else .ok (
    if 0 < I.cfg.lookupLen ∧ I.cfg.lookupLen ≤ q.length then
      let tl := q.drop (q.length - I.cfg.lookupLen)
      let b := I.lookup.getD (khash tl * 2) 0
      let e := I.lookup.getD (khash tl * 2 + 1) 0
      if b < e then
        I.searchGoT (q.take (q.length - I.cfg.lookupLen)).reverse b e I.cfg.lookupLen
      else I.searchGoT q.reverse 0 (I.n + 1) 0
    else I.searchGoT q.reverse 0 (I.n + 1) 0)

/-- Length-prefixed serialization of one flat array, the container codec
of the Serialization Adapter. -/
def serList (l : List Nat) : List Nat := l.length :: l

/-- Modelled from the spec: FMIndex save, serializing the four
substructures in the fixed order BWT, occurrence table (symbol totals,
coarse checkpoints, fine checkpoints), sampled suffix array, lookup table,
then N and the configuration. -/
def FMIndex.save (I : FMIndex) : List Nat :=
  serList I.bwtArr ++ (serList I.cArr ++ serList I.occ1 ++ serList I.occ2)
    ++ serList I.ssa ++ serList I.lookup
    ++ [I.n, I.cfg.l1, I.cfg.l2, I.cfg.saIntv, I.cfg.lookupLen]

/-- Reads one length-prefixed section, rejecting truncated input. -/
def readSec : List Nat → Except FmErr (List Nat × List Nat)
  | [] => .error .corruptIndex
  | len :: rest =>
    if len ≤ rest.length then .ok (rest.take len, rest.drop len)
    else .error .corruptIndex

/-- Modelled from the spec: FMIndex load, reading the sections in the
fixed order and validating the structural invariants, that is the section
lengths consistent with N and the configuration; any violation, such as
an N mismatch between sections, is rejected with CorruptIndexError. -/
def load (input : List Nat) : Except FmErr FMIndex :=
  match readSec input with
  | .error e => .error e
  | .ok (bwtArr, r1) =>
    match readSec r1 with
    | .error e => .error e
    | .ok (cArr, r2) =>
      match readSec r2 with
      | .error e => .error e
      | .ok (occ1, r3) =>
        match readSec r3 with
        | .error e => .error e
        | .ok (occ2, r4) =>
          match readSec r4 with
          | .error e => .error e
          | .ok (ssa, r5) =>
            match readSec r5 with
            | .error e => .error e
            | .ok (lookup, r6) =>
              match r6 with
              | [n, l1, l2, saIntv, lookupLen] =>
                if bwtArr.length = n + 1 ∧ cArr.length = 4
                    ∧ occ1.length = ((n + 1) / l1 + 1) * 4
                    ∧ occ2.length = ((n + 1) / l2 + 1) * 4
                    ∧ ssa.length = n + 1
                    ∧ lookup.length = 4 ^ lookupLen * 2 then
                  .ok ⟨n, ⟨l1, l2, saIntv, lookupLen⟩, bwtArr, cArr, occ1, occ2,
                    ssa, lookup⟩
                else .error .corruptIndex
              | _ => .error .corruptIndex

/-- One concrete index configuration: coarse interval 4, fine interval 2,
suffix-array sampling 2, lookup length 1. -/
def cfgA : FmConfig := ⟨4, 2, 2, 1⟩

/-- Another concrete configuration with everything at its densest: all
checkpoints, full suffix array, no lookup table. -/
def cfgB : FmConfig := ⟨1, 1, 1, 0⟩

/-! ## Theorems -/

/-! ### Lexicographic order lemmas -/

/-- Nothing is below the empty sequence. -/
theorem lexLt_nil_right (x : List Sym) : lexLt x [] = false := by
  cases x <;> rfl

/-- The order is irreflexive. -/
theorem lexLt_irrefl (x : List Sym) : lexLt x x = false := by
  induction x with
  | nil => rfl
  | cons a as ih => simp [lexLt, ih]

/-- The order is asymmetric. -/
theorem lexLt_asymm : ∀ {x y : List Sym}, lexLt x y = true → lexLt y x = false
  | [], [], h => by simp [lexLt] at h
  | [], _ :: _, _ => rfl
  | _ :: _, [], h => by simp [lexLt] at h
  | a :: as, b :: bs, h => by
    simp only [lexLt] at h ⊢
    rcases Nat.lt_trichotomy a.val b.val with h1 | h1 | h1
    · rw [if_neg (by omega), if_pos h1]
    · rw [if_neg (by omega), if_neg (by omega)] at h ⊢
      exact lexLt_asymm h
    · rw [if_neg (by omega), if_pos h1] at h
      exact absurd h (by simp)

/-- Two sequences incomparable in the strict order are equal. -/
theorem lexLt_antisymm : ∀ {x y : List Sym},
    lexLt x y = false → lexLt y x = false → x = y
  | [], [], _, _ => rfl
  | [], _ :: _, h1, _ => by simp [lexLt] at h1
  | _ :: _, [], _, h2 => by simp [lexLt] at h2
  | a :: as, b :: bs, h1, h2 => by
    simp only [lexLt] at h1 h2
    rcases Nat.lt_trichotomy a.val b.val with hc | hc | hc
    · rw [if_pos hc] at h1
      exact absurd h1 (by simp)
    · rw [if_neg (by omega), if_neg (by omega)] at h1 h2
      have : a = b := Fin.ext hc
      rw [this, lexLt_antisymm h1 h2]
    · rw [if_pos hc] at h2
      exact absurd h2 (by simp)

/-- The order is transitive. -/
theorem lexLt_trans : ∀ {x y z : List Sym},
    lexLt x y = true → lexLt y z = true → lexLt x z = true
  | [], _, _ :: _, _, _ => rfl
  | [], _, [], _, h2 => by rw [lexLt_nil_right] at h2; exact absurd h2 (by simp)
  | _ :: _, y, [], h1, h2 => by rw [lexLt_nil_right] at h2; exact absurd h2 (by simp)
  | a :: as, [], c :: cs, h1, _ => by simp [lexLt] at h1
  | a :: as, b :: bs, c :: cs, h1, h2 => by
    simp only [lexLt] at h1 h2 ⊢
    rcases Nat.lt_trichotomy a.val b.val with hab | hab | hab
    · rcases Nat.lt_trichotomy b.val c.val with hbc | hbc | hbc
      · rw [if_pos (by omega)]
      · rw [if_pos (by omega)]
      · rw [if_neg (by omega), if_pos hbc] at h2
        exact absurd h2 (by simp)
    · rcases Nat.lt_trichotomy b.val c.val with hbc | hbc | hbc
      · rw [if_pos (by omega)]
      · rw [if_neg (by omega), if_neg (by omega)] at h1 h2 ⊢
        exact lexLt_trans h1 h2
      · rw [if_neg (by omega), if_pos hbc] at h2
        exact absurd h2 (by simp)
    · rw [if_neg (by omega), if_pos hab] at h1
      exact absurd h1 (by simp)

/-- A pattern is never strictly above a sequence extending it. -/
theorem isPre_not_lexLt : ∀ {p x : List Sym}, p <+: x → lexLt x p = false
  | [], x, _ => lexLt_nil_right x
  | a :: as, x, hp => by
    obtain ⟨t, ht⟩ := hp
    subst ht
    simp only [List.cons_append, lexLt]
    rw [if_neg (by omega), if_neg (by omega)]
    exact isPre_not_lexLt ⟨t, rfl⟩

/-- Whatever is below a pattern is below every sequence extending the
pattern. -/
theorem lexLt_of_lt_of_isPre : ∀ {p x y : List Sym},
    p <+: x → lexLt y p = true → lexLt y x = true
  | p, x, [], hp, hy => by
    cases p with
    | nil => simp [lexLt] at hy
    | cons a as =>
      obtain ⟨t, ht⟩ := hp
      subst ht
      rfl
  | p, x, c :: cs, hp, hy => by
    cases p with
    | nil => simp [lexLt] at hy
    | cons a as =>
      obtain ⟨t, ht⟩ := hp
      subst ht
      simp only [lexLt, List.cons_append] at hy ⊢
      rcases Nat.lt_trichotomy c.val a.val with hca | hca | hca
      · rw [if_pos hca]
      · rw [if_neg (by omega), if_neg (by omega)] at hy ⊢
        exact lexLt_of_lt_of_isPre ⟨t, rfl⟩ hy
      · rw [if_neg (by omega), if_pos hca] at hy
        exact absurd hy (by simp)

/-- A sequence extending the pattern is below every sequence that neither
sits below the pattern nor extends it. -/
theorem lexLt_of_isPre_of_not : ∀ {p x y : List Sym},
    p <+: x → lexLt y p = false → ¬ p <+: y → lexLt x y = true
  | [], _, y, _, _, hnp => absurd (List.nil_prefix) hnp
  | a :: as, x, [], _, h1, _ => by simp [lexLt] at h1
  | a :: as, x, d :: ys, hp, h1, hnp => by
    obtain ⟨t, ht⟩ := hp
    subst ht
    simp only [lexLt, List.cons_append] at h1 ⊢
    rcases Nat.lt_trichotomy a.val d.val with had | had | had
    · rw [if_pos had]
    · rw [if_neg (by omega), if_neg (by omega)] at h1 ⊢
      have had' : a = d := Fin.ext had
      subst had'
      refine lexLt_of_isPre_of_not ⟨t, rfl⟩ h1 ?_
      intro hpre
      exact hnp (List.cons_prefix_cons.mpr ⟨rfl, hpre⟩)
    · rw [if_pos had] at h1
      exact absurd h1 (by simp)

/-! ### Suffix array structure -/

/-- The suffix array is a permutation of the positions 0..N. -/
theorem sa_perm (S : List Sym) : (sa S).Perm (List.range (S.length + 1)) :=
  List.perm_insertionSort _ _

/-- The suffix array has N+1 rows. -/
theorem sa_length (S : List Sym) : (sa S).length = S.length + 1 := by
  rw [(sa_perm S).length_eq, List.length_range]

/-- Every suffix-array value is a valid position. -/
theorem sa_mem_lt (S : List Sym) {i : Nat} (h : i ∈ sa S) : i < S.length + 1 :=
  List.mem_range.mp ((sa_perm S).mem_iff.mp h)

/-- The suffix array is sorted under the suffix comparison. -/
theorem sa_sorted (S : List Sym) : (sa S).Pairwise (suffLE S) := by
  haveI : IsTotal Nat (suffLE S) := ⟨fun i j => by
    unfold suffLE
    cases hij : lexLt (S.drop j) (S.drop i) with
    | false => exact Or.inl rfl
    | true => exact Or.inr (lexLt_asymm hij)⟩
  haveI : IsTrans Nat (suffLE S) := ⟨fun i j k hij hjk => by
    unfold suffLE at hij hjk ⊢
    cases hki : lexLt (S.drop k) (S.drop i) with
    | false => rfl
    | true =>
      exfalso
      cases hkj : lexLt (S.drop k) (S.drop j) with
      | true => exact absurd hjk (by rw [hkj]; simp)
      | false =>
        cases hjk2 : lexLt (S.drop j) (S.drop k) with
        | true =>
          have hji := lexLt_trans hjk2 hki
          exact absurd hij (by rw [hji]; simp)
        | false =>
          have heq := lexLt_antisymm hkj hjk2
          rw [heq] at hki
          exact absurd hij (by rw [hki]; simp)⟩
  exact List.sorted_insertionSort _ _

/-- The suffix array is strictly sorted: distinct rows hold strictly
ordered suffixes. -/
theorem sa_pairwise (S : List Sym) :
    (sa S).Pairwise (fun i j => lexLt (S.drop i) (S.drop j) = true) := by
  have hnd : (sa S).Nodup := (sa_perm S).symm.nodup (List.nodup_range _)
  refine List.Pairwise.imp_of_mem ?_ ((sa_sorted S).and hnd)
  intro a b ha hb hab
  obtain ⟨hle, hne⟩ := hab
  cases hab2 : lexLt (S.drop a) (S.drop b) with
  | true => rfl
  | false =>
    exfalso
    unfold suffLE at hle
    have heq := lexLt_antisymm hab2 hle
    have hlen : (S.drop a).length = (S.drop b).length := by rw [heq]
    rw [List.length_drop, List.length_drop] at hlen
    have ha' : a < S.length + 1 := sa_mem_lt S ha
    have hb' : b < S.length + 1 := sa_mem_lt S hb
    exact hne (by omega)

/-- In a strictly sorted list, an element satisfies a downward-closed
predicate exactly when its index lies below the number of satisfying
elements. -/
theorem pairwise_countP_getElem {α : Type} {lt : α → α → Prop} {P : α → Bool} :
    ∀ {l : List α}, l.Pairwise lt → (∀ a b, lt a b → P b = true → P a = true) →
      ∀ k (hk : k < l.length), (P l[k] = true ↔ k < l.countP P) := by
  intro l
  induction l with
  | nil =>
    intro _ _ k hk
    simp at hk
  | cons x xs ih =>
    intro hp hdc k hk
    rcases List.pairwise_cons.mp hp with ⟨hx, hxs⟩
    by_cases hPx : P x = true
    · rw [List.countP_cons_of_pos _ _ hPx]
      cases k with
      | zero => simpa using hPx
      | succ k' =>
        rw [List.getElem_cons_succ]
        rw [ih hxs hdc k' (by simpa using hk)]
        omega
    · have hall : ∀ y ∈ xs, P y = false := by
        intro y hy
        cases hPy : P y with
        | false => rfl
        | true => exact absurd (hdc x y (hx y hy) hPy) hPx
      have hcnt : (x :: xs).countP P = 0 := by
        rw [List.countP_eq_zero]
        intro a ha
        rcases List.mem_cons.mp ha with h | h
        · subst h
          simpa using hPx
        · rw [hall a h]
          simp
      rw [hcnt]
      simp only [Nat.not_lt_zero, iff_false]
      cases k with
      | zero => simpa using hPx
      | succ k' =>
        rw [List.getElem_cons_succ]
        rw [hall _ (List.getElem_mem _)]
        simp

/-- Row k of the suffix array holds a suffix strictly below the pattern
exactly when k is below the pattern's begin bound. -/
theorem sa_row_lt_iff (S p : List Sym) (k : Nat) (hk : k < (sa S).length) :
    (lexLt (S.drop ((sa S)[k])) p = true ↔ k < cntLt S p) := by
  have h := @pairwise_countP_getElem Nat
    (fun i j => lexLt (S.drop i) (S.drop j) = true)
    (fun i => lexLt (S.drop i) p) (sa S) (sa_pairwise S)
    (fun a b hab hbp => lexLt_trans hab hbp) k hk
  rwa [(sa_perm S).countP_eq] at h

/-- The below-or-extending predicate is downward closed in the suffix
order. -/
theorem leP_downclosed (S p : List Sym) :
    ∀ a b, lexLt (S.drop a) (S.drop b) = true →
      (lexLt (S.drop b) p || p.isPrefixOf (S.drop b)) = true →
      (lexLt (S.drop a) p || p.isPrefixOf (S.drop a)) = true := by
  intro a b hab hb
  rw [Bool.or_eq_true] at hb ⊢
  rcases hb with hb1 | hb1
  · exact Or.inl (lexLt_trans hab hb1)
  · have hpb : p <+: S.drop b := List.isPrefixOf_iff_prefix.mp hb1
    by_cases hpa : p <+: S.drop a
    · exact Or.inr (List.isPrefixOf_iff_prefix.mpr hpa)
    · cases hla : lexLt (S.drop a) p with
      | true => exact Or.inl rfl
      | false =>
        exfalso
        have hba := lexLt_of_isPre_of_not hpb hla hpa
        rw [lexLt_asymm hba] at hab
        exact absurd hab (by simp)

/-- Row k of the suffix array holds a suffix below or extending the
pattern exactly when k is below the pattern's end bound. -/
theorem sa_row_le_iff (S p : List Sym) (k : Nat) (hk : k < (sa S).length) :
    ((lexLt (S.drop ((sa S)[k])) p || p.isPrefixOf (S.drop ((sa S)[k]))) = true
      ↔ k < cntLe S p) := by
  have hdc := leP_downclosed S p
  have h := @pairwise_countP_getElem Nat
    (fun i j => lexLt (S.drop i) (S.drop j) = true)
    (fun i => lexLt (S.drop i) p || p.isPrefixOf (S.drop i)) (sa S)
    (sa_pairwise S) hdc k hk
  rwa [(sa_perm S).countP_eq] at h

/-- The index of a row in the suffix array equals the number of suffixes
strictly below the suffix it holds. -/
theorem sa_row_cntLt (S : List Sym) (k : Nat) (hk : k < (sa S).length) :
    cntLt S (S.drop ((sa S)[k])) = k := by
  have h1 := sa_row_lt_iff S (S.drop ((sa S)[k])) k hk
  rw [lexLt_irrefl] at h1
  rcases Nat.lt_or_ge (cntLt S (S.drop ((sa S)[k]))) k with hlt | hge
  · exfalso
    set m := cntLt S (S.drop ((sa S)[k])) with hm
    have hmk : m < (sa S).length := lt_trans hlt hk
    have h2 := sa_row_lt_iff S (S.drop ((sa S)[k])) m hmk
    have h3 : lexLt (S.drop ((sa S)[m])) (S.drop ((sa S)[k])) = true :=
      List.pairwise_iff_getElem.mp (sa_pairwise S) m k hmk hk hlt
    rw [h3] at h2
    have := h2.mp rfl
    omega
  · have hub : ¬ (k < cntLt S (S.drop ((sa S)[k]))) := by
      intro hlt2
      exact absurd (h1.mpr hlt2) (by simp)
    omega

/-- Counting a predicate of the symbol over the index range equals counting
it over the sequence. -/
theorem countP_range_symAt (S : List Sym) (f : Nat → Bool) :
    (List.range S.length).countP (fun i => f (symAt S i))
      = S.countP (fun a => f a.val) := by
  induction S using List.reverseRecOn with
  | nil => simp
  | append_singleton T a ih =>
    rw [List.length_append, List.length_singleton, List.range_succ]
    rw [List.countP_append, List.countP_append]
    congr 1
    · rw [← ih]
      refine List.countP_congr ?_
      intro x hx
      have hxlt : x < T.length := List.mem_range.mp hx
      have hsym : symAt (T ++ [a]) x = symAt T x := by
        unfold symAt
        rw [List.getElem?_append_left hxlt]
      rw [hsym]
    · have hget : (T ++ [a])[T.length]? = some a := by
        rw [List.getElem?_append_right (le_refl _), Nat.sub_self]
        rfl
      have hsym : symAt (T ++ [a]) T.length = a.val := by
        unfold symAt
        rw [hget]
      simp only [List.countP_cons, List.countP_nil, hsym]

/-- Counting a disjunction of mutually exclusive predicates adds the
counts. -/
theorem countP_or_disjoint {α : Type} (l : List α) (p q : α → Bool)
    (h : ∀ x ∈ l, ¬(p x = true ∧ q x = true)) :
    l.countP (fun x => p x || q x) = l.countP p + l.countP q := by
  induction l with
  | nil => simp
  | cons x xs ih =>
    simp only [List.countP_cons]
    rw [ih (fun y hy => h y (List.mem_cons_of_mem x hy))]
    have hx := h x (List.mem_cons_self x xs)
    by_cases hp : p x = true <;> by_cases hq : q x = true <;> simp_all <;> omega

/-- Rank evaluated at the count of a downward-closed suffix predicate
equals the number of positions whose successor suffix satisfies the
predicate and whose own symbol is c. -/
theorem rank_at_countP (S : List Sym) (c : Nat) (hc : c < 4) (P : Nat → Bool)
    (hdc : ∀ a b, lexLt (S.drop a) (S.drop b) = true → P b = true → P a = true) :
    rank S c ((List.range (S.length + 1)).countP P)
      = (List.range S.length).countP (fun i => P (i + 1) && (symAt S i == c)) := by
  set n := (List.range (S.length + 1)).countP P with hn
  have hnsa : n = (sa S).countP P := by rw [hn, (sa_perm S).countP_eq]
  have hiff : ∀ k (hk : k < (sa S).length), (P ((sa S)[k]) = true ↔ k < n) := by
    intro k hk
    rw [hnsa]
    exact @pairwise_countP_getElem Nat
      (fun i j => lexLt (S.drop i) (S.drop j) = true) P (sa S)
      (sa_pairwise S) hdc k hk
  have h1 : rank S c n = ((sa S).take n).countP (fun i => bwtAt S i == c) := by
    unfold rank bwt
    rw [← List.map_take, List.countP_map]
    rfl
  have htake : ∀ x ∈ (sa S).take n, P x = true := by
    intro x hx
    obtain ⟨j, hj, hjx⟩ := List.mem_iff_getElem.mp hx
    have hjlen : j < (sa S).length := by
      have := List.length_take n (sa S)
      omega
    have hjn : j < n := by
      have := List.length_take n (sa S)
      omega
    rw [← hjx, List.getElem_take]
    exact (hiff j hjlen).mpr hjn
  have hdrop : ∀ x ∈ (sa S).drop n, P x = false := by
    intro x hx
    obtain ⟨j, hj, hjx⟩ := List.mem_iff_getElem.mp hx
    have hjlen : n + j < (sa S).length := by
      rw [List.length_drop] at hj
      omega
    rw [← hjx, List.getElem_drop]
    cases hp : P ((sa S)[n + j]) with
    | false => rfl
    | true =>
      have := (hiff (n + j) hjlen).mp hp
      omega
  have h2 : ((sa S).take n).countP (fun i => bwtAt S i == c)
      = (sa S).countP (fun i => P i && (bwtAt S i == c)) := by
    conv_rhs => rw [← List.take_append_drop n (sa S)]
    rw [List.countP_append]
    have hA : ((sa S).take n).countP (fun i => P i && (bwtAt S i == c))
        = ((sa S).take n).countP (fun i => bwtAt S i == c) :=
      List.countP_congr (fun x hx => by rw [htake x hx]; simp)
    have hB : ((sa S).drop n).countP (fun i => P i && (bwtAt S i == c)) = 0 := by
      rw [List.countP_eq_zero]
      intro x hx
      rw [hdrop x hx]
      simp
    rw [hA, hB]
    omega
  have h3 : (sa S).countP (fun i => P i && (bwtAt S i == c))
      = (List.range (S.length + 1)).countP (fun i => P i && (bwtAt S i == c)) :=
    (sa_perm S).countP_eq _
  rw [h1, h2, h3]
  rw [List.range_succ_eq_map]
  rw [List.countP_cons]
  have hz : (P 0 && (bwtAt S 0 == c)) = false := by
    have h4 : (bwtAt S 0 == c) = false := by
      unfold bwtAt
      rw [if_pos rfl]
      exact beq_eq_false_iff_ne.mpr (by omega)
    rw [h4, Bool.and_false]
  rw [hz]
  rw [if_neg (by simp)]
  rw [Nat.add_zero]
  rw [List.countP_map]
  refine List.countP_congr ?_
  intro x _
  show (P (x + 1) && (bwtAt S (x + 1) == c)) = true
    ↔ (P (x + 1) && (symAt S x == c)) = true
  have hb : bwtAt S (x + 1) = symAt S x := by
    unfold bwtAt
    rw [if_neg (by omega)]
    congr 1
  rw [hb]

/-! ### Backward-search step lemmas -/

/-- No suffix lies strictly below the empty pattern. -/
theorem cntLt_nil (S : List Sym) : cntLt S [] = 0 := by
  unfold cntLt
  rw [List.countP_eq_zero]
  intro a _
  rw [lexLt_nil_right]
  simp

/-- Every suffix extends the empty pattern, so its interval is the full
row range. -/
theorem cntLe_nil (S : List Sym) : cntLe S [] = S.length + 1 := by
  unfold cntLe
  have h : List.countP (fun i => lexLt (S.drop i) [] || [].isPrefixOf (S.drop i))
      (List.range (S.length + 1)) = (List.range (S.length + 1)).length := by
    rw [List.countP_eq_length]
    intro a _
    rw [Bool.or_eq_true]
    exact Or.inr (List.isPrefixOf_iff_prefix.mpr List.nil_prefix)
  rw [h, List.length_range]

/-- The begin bound never exceeds the end bound. -/
theorem cntLt_le_cntLe (S p : List Sym) : cntLt S p ≤ cntLe S p := by
  unfold cntLt cntLe
  refine List.countP_mono_left ?_
  intro x _ h
  rw [Bool.or_eq_true]
  exact Or.inl h

/-- The end bound splits into the begin bound plus the occurrence count. -/
theorem cntLe_eq_add (S p : List Sym) : cntLe S p = cntLt S p + occCount S p := by
  unfold cntLe cntLt occCount
  refine countP_or_disjoint _ _ _ ?_
  intro x _
  rintro ⟨h1, h2⟩
  have hp : p <+: S.drop x := List.isPrefixOf_iff_prefix.mp h2
  rw [isPre_not_lexLt hp] at h1
  exact absurd h1 (by simp)

/-- The end bound stays within the row range. -/
theorem cntLe_le (S p : List Sym) : cntLe S p ≤ S.length + 1 := by
  unfold cntLe
  calc List.countP _ _ ≤ (List.range (S.length + 1)).length := List.countP_le_length _
  _ = S.length + 1 := List.length_range _

/-- Backward-search step for the begin bound. -/
theorem cntLt_cons (S : List Sym) (c : Sym) (p : List Sym) :
    cntLt S (c :: p) = cLess S c.val + rank S c.val (cntLt S p) := by
  have hrank : rank S c.val (cntLt S p)
      = (List.range S.length).countP
          (fun i => lexLt (S.drop (i + 1)) p && (symAt S i == c.val)) := by
    unfold cntLt
    exact rank_at_countP S c.val c.isLt (fun i => lexLt (S.drop i) p)
      (fun a b hab hbp => lexLt_trans hab hbp)
  have hsplit : cntLt S (c :: p)
      = (List.range S.length).countP (fun i => lexLt (S.drop i) (c :: p)) + 1 := by
    unfold cntLt
    rw [List.range_succ, List.countP_append]
    congr 1
    rw [List.countP_singleton]
    rw [List.drop_length]
    rfl
  have hpoint : ∀ i ∈ List.range S.length,
      lexLt (S.drop i) (c :: p) = true
        ↔ (decide (symAt S i < c.val)
            || ((symAt S i == c.val) && lexLt (S.drop (i + 1)) p)) = true := by
    intro i hi
    have hilt : i < S.length := List.mem_range.mp hi
    have hdropeq : S.drop i = S[i] :: S.drop (i + 1) := List.drop_eq_getElem_cons hilt
    have hsym : symAt S i = (S[i]).val := by
      unfold symAt
      rw [List.getElem?_eq_getElem hilt]
    rw [hdropeq, hsym]
    show lexLt (S[i] :: S.drop (i + 1)) (c :: p) = true ↔ _
    simp only [lexLt]
    rcases Nat.lt_trichotomy (S[i]).val c.val with hcc | hcc | hcc
    · rw [if_pos hcc]
      have h1 : decide ((S[i]).val < c.val) = true := by simpa using hcc
      rw [h1]
      simp
    · rw [if_neg (by omega), if_neg (by omega)]
      have h1 : decide ((S[i]).val < c.val) = false := by simp; omega
      have h2 : ((S[i]).val == c.val) = true := by simpa using hcc
      rw [h1, h2]
      simp
    · rw [if_neg (by omega), if_pos hcc]
      have h1 : decide ((S[i]).val < c.val) = false := by simp; omega
      have h2 : ((S[i]).val == c.val) = false := by simp; omega
      rw [h1, h2]
      simp
  rw [hsplit, List.countP_congr hpoint]
  rw [countP_or_disjoint _ _ _ (by
    intro x _
    rintro ⟨h1, h2⟩
    rw [Bool.and_eq_true] at h2
    simp only [decide_eq_true_eq] at h1
    have h3 := beq_iff_eq.mp h2.1
    omega)]
  rw [countP_range_symAt S (fun v => decide (v < c.val))]
  rw [hrank]
  unfold cLess
  have hcomm : (List.range S.length).countP
      (fun i => (symAt S i == c.val) && lexLt (S.drop (i + 1)) p)
      = (List.range S.length).countP
          (fun i => lexLt (S.drop (i + 1)) p && (symAt S i == c.val)) :=
    List.countP_congr (fun x _ => by rw [Bool.and_comm])
  rw [hcomm]
  omega

/-- Backward-search step for the end bound. -/
theorem cntLe_cons (S : List Sym) (c : Sym) (p : List Sym) :
    cntLe S (c :: p) = cLess S c.val + rank S c.val (cntLe S p) := by
  have hrank : rank S c.val (cntLe S p)
      = (List.range S.length).countP
          (fun i => (lexLt (S.drop (i + 1)) p || p.isPrefixOf (S.drop (i + 1)))
            && (symAt S i == c.val)) := by
    unfold cntLe
    exact rank_at_countP S c.val c.isLt
      (fun i => lexLt (S.drop i) p || p.isPrefixOf (S.drop i)) (leP_downclosed S p)
  have hsplit : cntLe S (c :: p)
      = (List.range S.length).countP
          (fun i => lexLt (S.drop i) (c :: p) || (c :: p).isPrefixOf (S.drop i)) + 1 := by
    unfold cntLe
    rw [List.range_succ, List.countP_append]
    congr 1
    rw [List.countP_singleton, List.drop_length]
    rfl
  have hpoint : ∀ i ∈ List.range S.length,
      (lexLt (S.drop i) (c :: p) || (c :: p).isPrefixOf (S.drop i)) = true
        ↔ (decide (symAt S i < c.val)
            || ((symAt S i == c.val)
                && (lexLt (S.drop (i + 1)) p || p.isPrefixOf (S.drop (i + 1))))) = true := by
    intro i hi
    have hilt : i < S.length := List.mem_range.mp hi
    have hdropeq : S.drop i = S[i] :: S.drop (i + 1) := List.drop_eq_getElem_cons hilt
    have hsym : symAt S i = (S[i]).val := by
      unfold symAt
      rw [List.getElem?_eq_getElem hilt]
    rw [hdropeq, hsym]
    have hpre : (c :: p).isPrefixOf (S[i] :: S.drop (i + 1))
        = ((c == S[i]) && p.isPrefixOf (S.drop (i + 1))) := rfl
    show (lexLt (S[i] :: S.drop (i + 1)) (c :: p)
        || (c :: p).isPrefixOf (S[i] :: S.drop (i + 1))) = true ↔ _
    rw [hpre]
    simp only [lexLt]
    rcases Nat.lt_trichotomy (S[i]).val c.val with hcc | hcc | hcc
    · rw [if_pos hcc]
      have h1 : decide ((S[i]).val < c.val) = true := by simpa using hcc
      rw [h1]
      simp
    · have hceq : c = S[i] := Fin.ext hcc.symm
      rw [if_neg (by omega), if_neg (by omega)]
      have h1 : decide ((S[i]).val < c.val) = false := by simp; omega
      have h2 : ((S[i]).val == c.val) = true := by simpa using hcc
      have h3 : (c == S[i]) = true := beq_iff_eq.mpr hceq
      rw [h1, h2, h3]
      simp
    · rw [if_neg (by omega), if_pos hcc]
      have h1 : decide ((S[i]).val < c.val) = false := by simp; omega
      have h2 : ((S[i]).val == c.val) = false := by simp; omega
      have h3 : (c == S[i]) = false := by
        rw [beq_eq_false_iff_ne]
        intro hx
        rw [hx] at hcc
        omega
      rw [h1, h2, h3]
      simp
  rw [hsplit, List.countP_congr hpoint]
  rw [countP_or_disjoint _ _ _ (by
    intro x _
    rintro ⟨h1, h2⟩
    rw [Bool.and_eq_true] at h2
    simp only [decide_eq_true_eq] at h1
    have h3 := beq_iff_eq.mp h2.1
    omega)]
  rw [countP_range_symAt S (fun v => decide (v < c.val))]
  rw [hrank]
  unfold cLess
  have hcomm : (List.range S.length).countP
      (fun i => (symAt S i == c.val)
        && (lexLt (S.drop (i + 1)) p || p.isPrefixOf (S.drop (i + 1))))
      = (List.range S.length).countP
          (fun i => (lexLt (S.drop (i + 1)) p || p.isPrefixOf (S.drop (i + 1)))
            && (symAt S i == c.val)) :=
    List.countP_congr (fun x _ => by rw [Bool.and_comm])
  rw [hcomm]
  omega

/-! ### Backward-search loop invariant -/

/-- One backward-search iteration expressed through the interval bounds. -/
theorem searchGo_cons (S : List Sym) (c : Sym) (rest p : List Sym) (m : Nat) :
    searchGo S (c :: rest) (cntLt S p) (cntLe S p) m
      = if cntLe S (c :: p) ≤ cntLt S (c :: p) then (cntLt S p, cntLe S p, m)
        else searchGo S rest (cntLt S (c :: p)) (cntLe S (c :: p)) (m + 1) := by
  have hstep : stepIv S c (cntLt S p) (cntLe S p)
      = (cntLt S (c :: p), cntLe S (c :: p)) := by
    unfold stepIv
    rw [cntLt_cons, cntLe_cons]
  simp only [searchGo, hstep]

/-- Invariant of the backward-search loop: starting from the interval of a
pattern, the loop matches some count k of further symbols, stops with the
interval of the extended pattern, and, when it stopped early, the next
extension is empty. -/
theorem searchGo_spec (S : List Sym) :
    ∀ (xs : List Sym) (p : List Sym) (m : Nat), cntLt S p < cntLe S p →
      ∃ k, k ≤ xs.length
        ∧ searchGo S xs (cntLt S p) (cntLe S p) m
            = (cntLt S ((xs.take k).reverse ++ p), cntLe S ((xs.take k).reverse ++ p), m + k)
        ∧ cntLt S ((xs.take k).reverse ++ p) < cntLe S ((xs.take k).reverse ++ p)
        ∧ ∀ (hk : k < xs.length),
            cntLe S (xs[k] :: ((xs.take k).reverse ++ p))
              ≤ cntLt S (xs[k] :: ((xs.take k).reverse ++ p)) := by
  intro xs
  induction xs with
  | nil =>
    intro p m hne
    refine ⟨0, by simp, ?_, by simpa using hne, fun hk => by simp at hk⟩
    simp [searchGo]
  | cons c rest ih =>
    intro p m hne
    rw [searchGo_cons]
    by_cases hstop : cntLe S (c :: p) ≤ cntLt S (c :: p)
    · refine ⟨0, by simp, ?_, by simpa using hne, ?_⟩
      · rw [if_pos hstop]
        simp
      · intro hk
        simpa using hstop
    · rw [if_neg hstop]
      push_neg at hstop
      obtain ⟨k, hk1, hk2, hk3, hk4⟩ := ih (c :: p) (m + 1) hstop
      have harr : (rest.take k).reverse ++ (c :: p)
          = ((c :: rest).take (k + 1)).reverse ++ p := by
        rw [List.take_succ_cons, List.reverse_cons, List.append_assoc,
          List.singleton_append]
      refine ⟨k + 1, by simpa using hk1, ?_, ?_, ?_⟩
      · rw [hk2, harr]
        have hm : m + 1 + k = m + (k + 1) := by omega
        rw [hm]
      · rw [← harr]
        exact hk3
      · intro hk
        have hk' : k < rest.length := by simpa using hk
        have hsym : (c :: rest)[k + 1] = rest[k] := List.getElem_cons_succ c rest k hk
        rw [hsym, ← harr]
        exact hk4 hk'

/-- Reversed prefix of the reversed query: the last k symbols. -/
theorem revtake (Q : List Sym) (k : Nat) :
    (Q.reverse.take k).reverse = Q.drop (Q.length - k) := by
  rw [List.take_reverse, List.reverse_reverse]

/-- The occurrence count of the empty query is the full row count. -/
theorem occCount_nil (S : List Sym) : occCount S [] = S.length + 1 := by
  unfold occCount
  have h : List.countP (fun i => [].isPrefixOf (S.drop i)) (List.range (S.length + 1))
      = (List.range (S.length + 1)).length := by
    rw [List.countP_eq_length]
    intro a _
    exact List.isPrefixOf_iff_prefix.mpr List.nil_prefix
  rw [h, List.length_range]

/-- Occurrence counts carry over to suffixes of the query. -/
theorem occCount_drop_pos (S Q : List Sym) (h : 0 < occCount S Q) (j : Nat) :
    0 < occCount S (Q.drop j) := by
  by_cases hj : Q.length ≤ j
  · rw [List.drop_eq_nil_of_le hj, occCount_nil]
    omega
  · push_neg at hj
    unfold occCount at h ⊢
    rw [List.countP_pos_iff] at h ⊢
    obtain ⟨a, ha, hpa⟩ := h
    have harange : a < S.length + 1 := List.mem_range.mp ha
    have hpre : Q <+: S.drop a := List.isPrefixOf_iff_prefix.mp hpa
    have hlen : Q.length ≤ (S.drop a).length := hpre.length_le
    rw [List.length_drop] at hlen
    refine ⟨a + j, List.mem_range.mpr (by omega), ?_⟩
    refine List.isPrefixOf_iff_prefix.mpr ?_
    obtain ⟨t, ht⟩ := hpre
    have hd : (S.drop a).drop j = Q.drop j ++ t := by
      rw [← ht, List.drop_append_of_le_length (by omega)]
    rw [List.drop_drop] at hd
    exact ⟨t, hd.symm⟩

/-- Membership in the offsets of a pattern's interval describes exactly the
occurrence positions of the pattern. -/
theorem mem_get_offsets_iff (S p : List Sym) (i : Nat) :
    i ∈ get_offsets S (cntLt S p) (cntLe S p) ↔ (i ≤ S.length ∧ p <+: S.drop i) := by
  have hble : cntLt S p ≤ cntLe S p := cntLt_le_cntLe S p
  have hele : cntLe S p ≤ (sa S).length := by
    rw [sa_length]
    exact cntLe_le S p
  unfold get_offsets
  constructor
  · intro hi
    obtain ⟨t, ht, hti⟩ := List.mem_iff_getElem.mp hi
    have hlen1 : ((sa S).take (cntLe S p)).length = cntLe S p := by
      rw [List.length_take]
      omega
    have htl : t < cntLe S p - cntLt S p := by
      rw [List.length_drop, hlen1] at ht
      omega
    have hrowlt : cntLt S p + t < (sa S).length := by omega
    have hrow : (((sa S).take (cntLe S p)).drop (cntLt S p))[t] = (sa S)[cntLt S p + t] := by
      rw [List.getElem_drop]
      exact List.getElem_take _
    rw [hrow] at hti
    have hge : ¬ (cntLt S p + t < cntLt S p) := by omega
    have h1 : lexLt (S.drop ((sa S)[cntLt S p + t])) p = false := by
      cases hx : lexLt (S.drop ((sa S)[cntLt S p + t])) p with
      | false => rfl
      | true => exact absurd ((sa_row_lt_iff S p _ hrowlt).mp hx) hge
    have h2 := (sa_row_le_iff S p _ hrowlt).mpr (by omega)
    rw [Bool.or_eq_true, h1] at h2
    rcases h2 with h2 | h2
    · exact absurd h2 (by simp)
    · constructor
      · have := sa_mem_lt S (List.getElem_mem hrowlt)
        omega
      · rw [← hti]
        exact List.isPrefixOf_iff_prefix.mp h2
  · rintro ⟨hile, hpre⟩
    have himem : i ∈ sa S := (sa_perm S).mem_iff.mpr (List.mem_range.mpr (by omega))
    obtain ⟨k, hk, hki⟩ := List.mem_iff_getElem.mp himem
    have hkb : ¬ k < cntLt S p := by
      intro hlt
      have := (sa_row_lt_iff S p k hk).mpr hlt
      rw [hki, isPre_not_lexLt hpre] at this
      exact absurd this (by simp)
    have hke : k < cntLe S p := by
      refine (sa_row_le_iff S p k hk).mp ?_
      rw [hki, Bool.or_eq_true]
      exact Or.inr (List.isPrefixOf_iff_prefix.mpr hpre)
    have hbound : k - cntLt S p < (((sa S).take (cntLe S p)).drop (cntLt S p)).length := by
      rw [List.length_drop, List.length_take]
      omega
    refine List.mem_iff_getElem.mpr ⟨k - cntLt S p, hbound, ?_⟩
    have hrow : (((sa S).take (cntLe S p)).drop (cntLt S p))[k - cntLt S p]
        = (sa S)[cntLt S p + (k - cntLt S p)] := by
      rw [List.getElem_drop]
      exact List.getElem_take _
    rw [hrow]
    rw [← hki]
    congr 1
    omega

/-! ### FM-index query claims C1, C3 and C5 -/

/-- Claim C1: for every sequence S and every substring Q of S, get_range
with zero allowed mismatches returns a non-empty suffix-array interval with
matched_length equal to the query length, and get_offsets on that interval
yields exactly the set of starting positions at which Q occurs; in
particular, for GATTACA the query ATT gives the one-element interval
(3, 4) whose offsets are the single position 1. -/
theorem get_range_exact_match :
    (∀ S Q : List Sym, 0 < occCount S Q →
      ∃ b e, get_range S Q 0 = .ok (b, e, Q.length) ∧ b < e ∧
        (∀ i, i ∈ get_offsets S b e ↔ (i ≤ S.length ∧ Q <+: S.drop i)))
    ∧ get_range gattaca attQ 0 = .ok (3, 4, 3)
    ∧ get_offsets gattaca 3 4 = [1] := by
  refine ⟨?_, rfl, rfl⟩
  intro S Q hocc
  have hne : cntLt S [] < cntLe S [] := by
    rw [cntLt_nil, cntLe_nil]
    omega
  obtain ⟨k, hk1, hk2, hk3, hk4⟩ := searchGo_spec S Q.reverse [] 0 hne
  rw [List.length_reverse] at hk1
  have hsuffocc : ∀ j, 0 < occCount S (Q.drop j) := occCount_drop_pos S Q hocc
  have hkQ : k = Q.length := by
    by_contra hne2
    have hklt : k < Q.length := by omega
    have hkrev : k < Q.reverse.length := by
      rw [List.length_reverse]
      omega
    have hblocked := hk4 hkrev
    have hpatt : (Q.reverse.take k).reverse ++ ([] : List Sym)
        = Q.drop (Q.length - k) := by
      rw [List.append_nil, revtake]
    have hnext : Q.reverse[k] :: ((Q.reverse.take k).reverse ++ ([] : List Sym))
        = Q.drop (Q.length - (k + 1)) := by
      rw [hpatt]
      have hidx : Q.length - (k + 1) < Q.length := by omega
      rw [List.drop_eq_getElem_cons hidx]
      have h1 : Q.reverse[k] = Q[Q.length - 1 - k] := List.getElem_reverse hkrev
      congr 1
      · rw [h1]
        congr 1
        omega
      · congr 1
        omega
    rw [hnext] at hblocked
    have hadd := cntLe_eq_add S (Q.drop (Q.length - (k + 1)))
    have hop := hsuffocc (Q.length - (k + 1))
    omega
  subst hkQ
  have htk : (Q.reverse.take Q.length).reverse ++ ([] : List Sym) = Q := by
    rw [List.append_nil, ← List.length_reverse, List.take_length, List.reverse_reverse]
  rw [htk] at hk2 hk3
  rw [cntLt_nil, cntLe_nil, Nat.zero_add] at hk2
  refine ⟨cntLt S Q, cntLe S Q, ?_, ?_, ?_⟩
  · unfold get_range
    rw [if_neg (by omega)]
    rw [hk2]
  · have hadd := cntLe_eq_add S Q
    omega
  · intro i
    exact mem_get_offsets_iff S Q i

/-- Witness for claim C1 at the tutorial scenario GATTACA with query
ATT. -/
theorem get_range_exact_match_witness :
    0 < occCount gattaca attQ
    ∧ (∃ b e, get_range gattaca attQ 0 = .ok (b, e, attQ.length) ∧ b < e ∧
        (∀ i, i ∈ get_offsets gattaca b e
          ↔ (i ≤ gattaca.length ∧ attQ <+: gattaca.drop i))) :=
  ⟨by decide, get_range_exact_match.1 gattaca attQ (by decide)⟩

/-- Claim C3: for a query that is not a substring of the indexed sequence,
get_range with zero allowed mismatches stops at the collapse, reports a
matched length strictly below the query length, and the offsets of the
returned interval are exactly the occurrences of the matched suffix of the
query. -/
theorem get_range_partial_match (S Q : List Sym) (h : occCount S Q = 0) :
    ∃ b e m, get_range S Q 0 = .ok (b, e, m) ∧ m < Q.length
      ∧ ∀ i, i ∈ get_offsets S b e
          ↔ (i ≤ S.length ∧ (Q.drop (Q.length - m)) <+: S.drop i) := by
  have hne : cntLt S [] < cntLe S [] := by
    rw [cntLt_nil, cntLe_nil]
    omega
  obtain ⟨k, hk1, hk2, hk3, hk4⟩ := searchGo_spec S Q.reverse [] 0 hne
  rw [List.length_reverse] at hk1
  have hklt : k < Q.length := by
    rcases Nat.lt_or_ge k Q.length with h1 | h1
    · exact h1
    · exfalso
      have hkQ : k = Q.length := by omega
      subst hkQ
      have htk : (Q.reverse.take Q.length).reverse ++ ([] : List Sym) = Q := by
        rw [List.append_nil, ← List.length_reverse, List.take_length,
          List.reverse_reverse]
      rw [htk] at hk3
      have hadd := cntLe_eq_add S Q
      omega
  have hpatt : (Q.reverse.take k).reverse ++ ([] : List Sym)
      = Q.drop (Q.length - k) := by
    rw [List.append_nil, revtake]
  rw [hpatt] at hk2 hk3
  rw [cntLt_nil, cntLe_nil, Nat.zero_add] at hk2
  refine ⟨cntLt S (Q.drop (Q.length - k)), cntLe S (Q.drop (Q.length - k)), k,
    ?_, hklt, ?_⟩
  · unfold get_range
    rw [if_neg (by omega)]
    rw [hk2]
  · intro i
    exact mem_get_offsets_iff S (Q.drop (Q.length - k)) i

/-- Witness for claim C3: TTT is not a substring of GATTACA. -/
theorem get_range_partial_match_witness :
    occCount gattaca tttQ = 0
    ∧ (∃ b e m, get_range gattaca tttQ 0 = .ok (b, e, m) ∧ m < tttQ.length
        ∧ ∀ i, i ∈ get_offsets gattaca b e
            ↔ (i ≤ gattaca.length ∧ (tttQ.drop (tttQ.length - m)) <+: gattaca.drop i)) :=
  ⟨by decide, get_range_partial_match gattaca tttQ (by decide)⟩

/-- Claim C5: a zero mismatch count performs pure exact backward search,
and every nonzero mismatch count fails with UnsupportedMismatchCountError
rather than silently behaving as exact search. -/
theorem get_range_mismatch_guard (S q : List Sym) (m : Nat) :
    (m ≠ 0 → get_range S q m = .error .unsupportedMismatchCount)
    ∧ get_range S q 0 = .ok (searchGo S q.reverse 0 (S.length + 1) 0) := by
  constructor
  · intro hm
    unfold get_range
    rw [if_pos hm]
  · unfold get_range
    rw [if_neg (by omega)]

/-- Witness for claim C5 at mismatch count one. -/
theorem get_range_mismatch_guard_witness :
    get_range gattaca attQ 1 = .error .unsupportedMismatchCount
    ∧ get_range gattaca attQ 0
      = .ok (searchGo gattaca attQ.reverse 0 (gattaca.length + 1) 0) :=
  ⟨(get_range_mismatch_guard gattaca attQ 1).1 (by omega),
   (get_range_mismatch_guard gattaca attQ 1).2⟩

/-! ### Codec lemmas, claims C6 and C7 -/

/-- Appending one symbol multiplies the raw hash by four and adds the
symbol. -/
theorem khash_append (s : List Sym) (c : Sym) :
    khash (s ++ [c]) = khash s * 4 + c.val := by
  simp [khash, List.foldl_append]

/-- The raw hash of a k-mer is bounded by 4 to the k-mer length. -/
theorem khash_lt (s : List Sym) : khash s < 4 ^ s.length := by
  induction s using List.reverseRecOn with
  | nil => simp [khash]
  | append_singleton s c ih =>
    rw [khash_append, List.length_append, List.length_singleton]
    have hc : c.val < 4 := c.isLt
    have h4 : 4 ^ (s.length + 1) = 4 ^ s.length * 4 := by ring
    omega

/-- Unhashing the raw hash at the original length recovers the k-mer. -/
theorem rhash_khash (s : List Sym) : rhash (khash s) s.length = s := by
  induction s using List.reverseRecOn with
  | nil => rfl
  | append_singleton s c ih =>
    rw [khash_append, List.length_append]
    show rhash (khash s * 4 + c.val) (s.length + 1) = s ++ [c]
    rw [rhash]
    have hdiv : (khash s * 4 + c.val) / 4 = khash s := by omega
    have hmod : (khash s * 4 + c.val) % 4 = c.val := by omega
    rw [hdiv, ih]
    congr 1
    simp only [List.cons.injEq, and_true]
    exact Fin.ext hmod

/-- For k-mers of length at most 32 no 64-bit truncation occurs in hash. -/
theorem hash_eq_khash (s : List Sym) (h : s.length ≤ 32) : hash s = khash s := by
  induction s using List.reverseRecOn with
  | nil => rfl
  | append_singleton s c ih =>
    rw [List.length_append] at h
    have hs : s.length ≤ 32 := by omega
    have h31 : s.length ≤ 31 := by simpa using h
    have hlt : khash s < 4 ^ s.length := khash_lt s
    have hpow : (4 : Nat) ^ s.length ≤ 4 ^ 31 := Nat.pow_le_pow_right (by omega) h31
    have h431 : (4 : Nat) ^ 31 = 4611686018427387904 := by norm_num
    have hc : c.val < 4 := c.isLt
    have hbound : khash s * 4 + c.val < 18446744073709551616 := by omega
    simp only [hash, khash, List.foldl_append, List.foldl_cons, List.foldl_nil]
    show (hash s * 4 + c.val) % 18446744073709551616 = khash s * 4 + c.val
    rw [ih hs]
    exact Nat.mod_eq_of_lt hbound

/-- Claim C6: for every valid k-mer up to the maximum representable length
(32 two-bit symbols in the 64-bit hash word), rhash applied to the hash of
the k-mer and its length is the exact inverse of the base-4 positional
encoding, returning the k-mer unchanged. -/
theorem hash_rhash_roundtrip (s : List Sym) (h : s.length ≤ 32) :
    rhash (hash s) s.length = s := by
  rw [hash_eq_khash s h]
  exact rhash_khash s

/-- Witness for claim C6 at the tutorial k-mer 12031. -/
theorem hash_rhash_roundtrip_witness :
    kmer12031.length ≤ 32 ∧ rhash (hash kmer12031) kmer12031.length = kmer12031 :=
  ⟨by decide, hash_rhash_roundtrip kmer12031 (by decide)⟩

/-- Claim C7: rev_comp reverses the order of a sequence while complementing
each symbol (A with T, C with G), as a pure transform, and it is an
involution. -/
theorem rev_comp_involution (s : List Sym) :
    rev_comp s = (s.map comp).reverse ∧ rev_comp (rev_comp s) = s := by
  refine ⟨rfl, ?_⟩
  have hcc : ∀ c : Sym, comp (comp c) = c := by decide
  simp only [rev_comp, List.map_reverse, List.reverse_reverse, List.map_map]
  have : (comp ∘ comp) = id := funext fun c => hcc c
  rw [this, List.map_id]

/-! ### CIGAR parsing and printing, claim C9 -/

/-- Fuel irrelevance for toDecAux: any two sufficient fuels agree. -/
theorem toDecAux_fuel (n : Nat) : ∀ f1 f2, n < f1 → n < f2 → toDecAux f1 n = toDecAux f2 n := by
  induction n using Nat.strong_induction_on with
  | _ n ih =>
    intro f1 f2 h1 h2
    match f1, f2 with
    | g1 + 1, g2 + 1 =>
      simp only [toDecAux]
      by_cases h : n < 10
      · simp [h]
      · simp only [if_neg h]
        congr 1
        have hd : n / 10 < n := Nat.div_lt_self (by omega) (by omega)
        exact ih (n / 10) hd g1 g2 (by omega) (by omega)

/-- Unfolding equation for toDec. -/
theorem toDec_eq (n : Nat) :
    toDec n = if n < 10 then [Char.ofNat (48 + n)]
      else toDec (n / 10) ++ [Char.ofNat (48 + n % 10)] := by
  show toDecAux (n + 1) n = _
  by_cases h : n < 10
  · simp [toDecAux, h]
  · simp only [toDecAux, if_neg h]
    congr 1
    have hd : n / 10 < n := Nat.div_lt_self (by omega) (by omega)
    exact toDecAux_fuel (n / 10) n (n / 10 + 1) (by omega) (by omega)

/-- Fuel irrelevance for to_elementsAux: any two sufficient fuels agree. -/
theorem to_elementsAux_fuel (l : List Char) :
    ∀ f1 f2, l.length < f1 → l.length < f2 → to_elementsAux f1 l = to_elementsAux f2 l := by
  have key : ∀ (n : Nat) (l : List Char), l.length = n →
      ∀ f1 f2, l.length < f1 → l.length < f2 → to_elementsAux f1 l = to_elementsAux f2 l := by
    intro n
    induction n using Nat.strong_induction_on with
    | _ n ih =>
      intro l hl f1 f2 h1 h2
      match f1, f2 with
      | g1 + 1, g2 + 1 =>
        match l with
        | [] => rfl
        | c :: cs =>
          simp only [to_elementsAux]
          have hp := parseSize_length ((c.toNat - 48) % 4294967296) cs
          by_cases hne : (parseSize ((c.toNat - 48) % 4294967296) cs).2 = []
          · simp [hne]
          · simp only [dif_neg hne]
            congr 1
            have ht : (parseSize ((c.toNat - 48) % 4294967296) cs).2.tail.length < n := by
              simp only [List.length_tail]
              simp only [List.length_cons] at hl
              omega
            simp only [List.length_cons] at h1 h2
            exact ih _ ht _ rfl g1 g2 (by simp only [List.length_tail]; omega)
              (by simp only [List.length_tail]; omega)
  exact key l.length l rfl

/-- Unfolding equation for to_elements on a nonempty string. -/
theorem to_elements_eq (c : Char) (cs : List Char) :
    to_elements (c :: cs)
      = (if hne : (parseSize ((c.toNat - 48) % 4294967296) cs).2 = [] then
          [⟨(parseSize ((c.toNat - 48) % 4294967296) cs).1, Char.ofNat 0⟩]
        else
          ⟨(parseSize ((c.toNat - 48) % 4294967296) cs).1,
            (parseSize ((c.toNat - 48) % 4294967296) cs).2.head hne⟩
            :: to_elements ((parseSize ((c.toNat - 48) % 4294967296) cs).2.tail)) := by
  show to_elementsAux ((c :: cs).length + 1) (c :: cs) = _
  simp only [List.length_cons, to_elementsAux]
  have hp := parseSize_length ((c.toNat - 48) % 4294967296) cs
  by_cases hne : (parseSize ((c.toNat - 48) % 4294967296) cs).2 = []
  · simp [hne]
  · simp only [dif_neg hne]
    congr 1
    exact to_elementsAux_fuel _ _ _ (by simp only [List.length_tail]; omega)
      (by omega)

/-- Printing a natural number always yields at least one character. -/
theorem toDec_ne_nil (n : Nat) : toDec n ≠ [] := by
  rw [toDec_eq]
  split <;> simp

/-- Character value of a decimal digit character. -/
theorem toNat_digitChar (k : Nat) (hk : k < 10) : (Char.ofNat (48 + k)).toNat = 48 + k := by
  interval_cases k <;> decide

/-- Decimal digit characters satisfy isDigit. -/
theorem isDigit_digitChar (k : Nat) (hk : k < 10) : (Char.ofNat (48 + k)).isDigit = true := by
  interval_cases k <;> decide

/-- Every character printed by toDec is a digit. -/
theorem toDec_digits (n : Nat) : ∀ c ∈ toDec n, c.isDigit = true := by
  induction n using Nat.strong_induction_on with
  | _ n ih =>
    rw [toDec_eq]
    by_cases h : n < 10
    · rw [if_pos h]
      intro c hc
      rw [List.mem_singleton] at hc
      subst hc
      exact isDigit_digitChar n h
    · rw [if_neg h]
      intro c hc
      rcases List.mem_append.mp hc with h1 | h1
      · exact ih (n / 10) (Nat.div_lt_self (by omega) (by omega)) c h1
      · rw [List.mem_singleton] at h1
        subst h1
        exact isDigit_digitChar _ (Nat.mod_lt _ (by omega))

/-- The digit loop consumes exactly a maximal run of digits and folds them
into the accumulator. -/
theorem parseSize_digits (ds : List Char) (op : Char) (rest : List Char)
    (hds : ∀ c ∈ ds, c.isDigit = true) (hop : op.isDigit = false) :
    ∀ acc : Nat, parseSize acc (ds ++ op :: rest)
      = (ds.foldl (fun a c => (a * 10 + (c.toNat - 48)) % 4294967296) acc, op :: rest) := by
  induction ds with
  | nil =>
    intro acc
    simp [parseSize, hop]
  | cons d ds ih =>
    intro acc
    have hd : d.isDigit = true := hds d (by simp)
    simp only [List.cons_append, parseSize, hd, if_true, List.foldl_cons]
    exact ih (fun c hc => hds c (List.mem_cons_of_mem d hc)) _

/-- Folding the digit characters of toDec recovers the printed value when
it fits in 32 bits. -/
theorem foldl_toDec (n : Nat) (hn : n < 4294967296) :
    (toDec n).foldl (fun a c => (a * 10 + (c.toNat - 48)) % 4294967296) 0 = n := by
  induction n using Nat.strong_induction_on with
  | _ n ih =>
    rw [toDec_eq]
    by_cases h : n < 10
    · rw [if_pos h]
      simp only [List.foldl_cons, List.foldl_nil]
      rw [toNat_digitChar n h]
      have he : 0 * 10 + (48 + n - 48) = n := by omega
      rw [he]
      exact Nat.mod_eq_of_lt hn
    · rw [if_neg h]
      rw [List.foldl_append]
      rw [ih (n / 10) (Nat.div_lt_self (by omega) (by omega)) (by omega)]
      simp only [List.foldl_cons, List.foldl_nil]
      rw [toNat_digitChar _ (Nat.mod_lt _ (by omega))]
      have he : n / 10 * 10 + (48 + n % 10 - 48) = n := by omega
      rw [he]
      exact Nat.mod_eq_of_lt hn

/-- Parsing one well-formed element off the front of a CIGAR string. -/
theorem to_elements_cons (n : Nat) (op : Char) (rest : List Char)
    (hn : n < 4294967296) (hop : op.isDigit = false) :
    to_elements (toDec n ++ op :: rest) = ⟨n, op⟩ :: to_elements rest := by
  obtain ⟨d, ds, hds⟩ : ∃ d ds, toDec n = d :: ds := by
    cases h : toDec n with
    | nil => exact absurd h (toDec_ne_nil n)
    | cons d ds => exact ⟨d, ds, rfl⟩
  have hdig : ∀ c ∈ d :: ds, c.isDigit = true := by
    rw [← hds]
    exact toDec_digits n
  have hps : parseSize ((d.toNat - 48) % 4294967296) (ds ++ op :: rest) = (n, op :: rest) := by
    rw [parseSize_digits ds op rest (fun c hc => hdig c (List.mem_cons_of_mem d hc)) hop]
    have h0 : (d.toNat - 48) % 4294967296 = (0 * 10 + (d.toNat - 48)) % 4294967296 := by
      norm_num
    rw [h0]
    have h1 : List.foldl (fun a c => (a * 10 + (c.toNat - 48)) % 4294967296)
        ((0 * 10 + (d.toNat - 48)) % 4294967296) ds
        = List.foldl (fun a c => (a * 10 + (c.toNat - 48)) % 4294967296) 0 (d :: ds) := rfl
    rw [h1, ← hds, foldl_toDec n hn]
  rw [hds, List.cons_append, to_elements_eq]
  simp only [hps]
  rw [dif_neg (List.cons_ne_nil op rest)]
  simp only [List.head_cons, List.tail_cons]

/-- Round trip for element lists: parsing the printed form of a CIGAR whose
sizes fit in the 32-bit size field and whose operations are not digits
recovers the elements. -/
theorem to_elements_cigarString (es : List Element)
    (h : ∀ e ∈ es, e.size < 4294967296 ∧ e.op.isDigit = false) :
    to_elements (cigarString es) = es := by
  induction es with
  | nil => rfl
  | cons e es ih =>
    obtain ⟨h1, h2⟩ := h e (by simp)
    show to_elements (Element.toChars e ++ cigarString es) = e :: es
    rw [Element.toChars, List.append_assoc, List.singleton_append]
    rw [to_elements_cons e.size e.op (cigarString es) h1 h2]
    rw [ih (fun x hx => h x (List.mem_cons_of_mem e hx))]

/-- Claim C9 counterexample: the well-formed CIGAR string 4294967296M (a
decimal size with no leading zeros followed by the non-digit operation
character M) does not survive the round trip: the 32-bit unsigned size
field wraps to 0, so printing returns 0M. -/
theorem cigar_roundtrip_counterexample :
    ('M'.isDigit = false)
    ∧ cigarString (to_elements (cigarString [⟨4294967296, 'M'⟩]))
      ≠ cigarString [⟨4294967296, 'M'⟩] := by
  constructor
  · decide
  · decide

/-- Claim C9 amended: for every well-formed CIGAR string — a possibly empty
concatenation of pairs of a decimal size without leading zeros followed by
one non-digit operation character — whose sizes are all below 2^32 (the
capacity of the unsigned size field), constructing a Cigar and converting
it back to a string returns the string unchanged. -/
theorem cigar_roundtrip (es : List Element)
    (h : ∀ e ∈ es, e.size < 4294967296 ∧ e.op.isDigit = false) :
    cigarString (to_elements (cigarString es)) = cigarString es := by
  rw [to_elements_cigarString es h]

/-- Witness for claim C9 (amended) on the CIGAR string 11M2I3D. -/
theorem cigar_roundtrip_witness :
    (∀ e ∈ [(⟨11, 'M'⟩ : Element), ⟨2, 'I'⟩, ⟨3, 'D'⟩],
        e.size < 4294967296 ∧ e.op.isDigit = false)
    ∧ cigarString (to_elements (cigarString [(⟨11, 'M'⟩ : Element), ⟨2, 'I'⟩, ⟨3, 'D'⟩]))
      = cigarString [(⟨11, 'M'⟩ : Element), ⟨2, 'I'⟩, ⟨3, 'D'⟩] :=
  ⟨by decide, cigar_roundtrip [⟨11, 'M'⟩, ⟨2, 'I'⟩, ⟨3, 'D'⟩] (by decide)⟩

/-! ### Interval constructors, claim C8 -/

/-- Claim C8: the four-argument Interval constructor throws
std::invalid_argument exactly when the strand is neither plus nor minus or
when end is less than begin; every successfully constructed interval
therefore satisfies begin at most end with a valid strand; and the
string-parsing constructor likewise throws whenever the parsed end is less
than the parsed begin. -/
theorem interval_ctor_spec :
    (∀ chrom b e strand, (∃ iv, Interval.mk4 chrom b e strand = .ok iv) ↔
        ((strand = '+' ∨ strand = '-') ∧ b ≤ e))
    ∧ (∀ chrom b e strand iv, Interval.mk4 chrom b e strand = .ok iv →
        iv.begin ≤ iv.iend ∧ (iv.strand = '+' ∨ iv.strand = '-'))
    ∧ (∀ s r, parse_string s = .ok r → r.iend < r.begin →
        ∃ msg, Interval.ofString s = .error msg) := by
  refine ⟨?_, ?_, ?_⟩
  · intro chrom b e strand
    constructor
    · rintro ⟨iv, hiv⟩
      unfold Interval.mk4 at hiv
      by_cases h1 : strand ≠ '+' ∧ strand ≠ '-'
      · rw [if_pos h1] at hiv
        exact absurd hiv (by simp)
      · rw [if_neg h1] at hiv
        by_cases h2 : e < b
        · rw [if_pos h2] at hiv
          exact absurd hiv (by simp)
        · push_neg at h1
          refine ⟨?_, by omega⟩
          by_cases hp : strand = '+'
          · exact Or.inl hp
          · exact Or.inr (h1 hp)
    · rintro ⟨h1, h2⟩
      refine ⟨⟨chrom, b, e, strand⟩, ?_⟩
      unfold Interval.mk4
      rw [if_neg (by tauto), if_neg (by omega)]
  · intro chrom b e strand iv hiv
    unfold Interval.mk4 at hiv
    by_cases h1 : strand ≠ '+' ∧ strand ≠ '-'
    · rw [if_pos h1] at hiv
      exact absurd hiv (by simp)
    · rw [if_neg h1] at hiv
      by_cases h2 : e < b
      · rw [if_pos h2] at hiv
        exact absurd hiv (by simp)
      · rw [if_neg h2] at hiv
        have : iv = ⟨chrom, b, e, strand⟩ := by
          cases hiv
          rfl
        subst this
        push_neg at h1
        refine ⟨?_, ?_⟩
        · show b ≤ e
          omega
        · show strand = '+' ∨ strand = '-'
          by_cases hp : strand = '+'
          · exact Or.inl hp
          · exact Or.inr (h1 hp)
  · intro s r hp hle
    unfold Interval.ofString
    rw [hp]
    show ∃ msg,
      (if r.iend < r.begin then Except.error "invalid interval string" else Except.ok r)
        = Except.error msg
    rw [if_pos hle]
    exact ⟨_, rfl⟩

/-- Witness for claim C8: a successful construction and a rejected
interval string with end before begin. -/
theorem interval_ctor_spec_witness :
    (∃ iv, Interval.mk4 ['c', '1'] 2 5 '+' = .ok iv)
    ∧ (∃ msg, Interval.ofString ['c', ':', '5', '-', '2'] = .error msg) :=
  ⟨(interval_ctor_spec.1 ['c', '1'] 2 5 '+').mpr (by decide),
   interval_ctor_spec.2.2 ['c', ':', '5', '-', '2'] ⟨['c'], 5, 2, '+'⟩ rfl (by decide)⟩

/-! ### SAM template length, claim C10 -/

/-- Claim C10 counterexample: compute_tlen is not antisymmetric under
exchanging the read and mate triples; at equal positions 5 with one-base
cigars, read forward and mate reverse, the two orders give 1 and 0. -/
theorem compute_tlen_antisym_counterexample :
    compute_tlen 5 [⟨1, 'M'⟩] true 5 [⟨1, 'M'⟩] false
      ≠ - compute_tlen 5 [⟨1, 'M'⟩] false 5 [⟨1, 'M'⟩] true := by
  decide

/-- Claim C10 amended: compute_tlen is antisymmetric under exchanging the
read and mate argument triples whenever the two mapping positions
differ. -/
theorem compute_tlen_antisym (rp : Int) (rc : List Element) (rf : Bool)
    (mp : Int) (mc : List Element) (mf : Bool) (h : rp ≠ mp) :
    compute_tlen rp rc rf mp mc mf = - compute_tlen mp mc mf rp rc rf := by
  rcases lt_or_gt_of_ne h with hlt | hgt
  · unfold compute_tlen
    rw [if_neg (by omega), if_pos (by omega), neg_neg]
  · unfold compute_tlen
    rw [if_pos (by omega), if_neg (by omega)]

/-- Witness for claim C10 (amended) at distinct positions 5 and 7. -/
theorem compute_tlen_antisym_witness :
    (5 : Int) ≠ 7 ∧ compute_tlen 5 [⟨2, 'M'⟩] true 7 [⟨3, 'M'⟩] false
      = - compute_tlen 7 [⟨3, 'M'⟩] false 5 [⟨2, 'M'⟩] true :=
  ⟨by decide, compute_tlen_antisym 5 [⟨2, 'M'⟩] true 7 [⟨3, 'M'⟩] false (by decide)⟩

/-! ### Serialization round trip, claim C2 -/

/-- Reading back one serialized section recovers it and the remaining
stream. -/
theorem readSec_serList (l rest : List Nat) :
    readSec (serList l ++ rest) = .ok (l, rest) := by
  show (if l.length ≤ (l ++ rest).length then
      Except.ok ((l ++ rest).take l.length, (l ++ rest).drop l.length)
    else Except.error FmErr.corruptIndex) = Except.ok (l, rest)
  rw [if_pos (by rw [List.length_append]; omega)]
  rw [List.take_left, List.drop_left]

/-- Section lengths of a built index satisfy the structural invariants
checked by load. -/
theorem build_section_lengths (S : List Sym) (cfg : FmConfig) :
    (build S cfg).bwtArr.length = (build S cfg).n + 1
    ∧ (build S cfg).cArr.length = 4
    ∧ (build S cfg).occ1.length = (((build S cfg).n + 1) / (build S cfg).cfg.l1 + 1) * 4
    ∧ (build S cfg).occ2.length = (((build S cfg).n + 1) / (build S cfg).cfg.l2 + 1) * 4
    ∧ (build S cfg).ssa.length = (build S cfg).n + 1
    ∧ (build S cfg).lookup.length = 4 ^ (build S cfg).cfg.lookupLen * 2 := by
  refine ⟨?_, ?_, ?_, ?_, ?_, ?_⟩
  · show (bwt S).length = S.length + 1
    rw [bwt, List.length_map, sa_length]
  · show ((List.range 4).map (fun c => cLess S c)).length = 4
    rw [List.length_map, List.length_range]
  · show ((List.range (((S.length + 1) / cfg.l1 + 1) * 4)).map _).length = _
    rw [List.length_map, List.length_range]
    rfl
  · show ((List.range (((S.length + 1) / cfg.l2 + 1) * 4)).map _).length = _
    rw [List.length_map, List.length_range]
    rfl
  · show ((List.range (S.length + 1)).map _).length = S.length + 1
    rw [List.length_map, List.length_range]
  · show ((List.range (4 ^ cfg.lookupLen * 2)).map _).length = 4 ^ cfg.lookupLen * 2
    rw [List.length_map, List.length_range]

/-- Claim C2: saving a built index and loading the bytes back yields the
identical index, hence an index answering every exact-match query (both
get_range and get_offsets) identically; and save writes the four
substructures in the fixed order BWT, occurrence table, sampled suffix
array, lookup table, then N and the configuration. -/
theorem save_load_roundtrip (S : List Sym) (cfg : FmConfig) (I : FMIndex)
    (hI : I = build S cfg) :
    load I.save = .ok I
    ∧ (∀ q m I2, load I.save = .ok I2 → I2.get_range q m = I.get_range q m)
    ∧ (∀ b e I2, load I.save = .ok I2 → I2.get_offsets b e = I.get_offsets b e)
    ∧ I.save = serList I.bwtArr
        ++ (serList I.cArr ++ serList I.occ1 ++ serList I.occ2)
        ++ serList I.ssa ++ serList I.lookup
        ++ [I.n, I.cfg.l1, I.cfg.l2, I.cfg.saIntv, I.cfg.lookupLen] := by
  have hload : load I.save = .ok I := by
    subst hI
    unfold load FMIndex.save
    simp only [List.append_assoc, readSec_serList]
    rw [if_pos (build_section_lengths S cfg)]
  refine ⟨hload, ?_, ?_, rfl⟩
  · intro q m I2 h
    rw [hload] at h
    injection h with h2
    rw [h2]
  · intro b e I2 h
    rw [hload] at h
    injection h with h2
    rw [h2]

/-- Witness for claim C2 on the GATTACA index under the first concrete
configuration. -/
theorem save_load_roundtrip_witness :
    build gattaca cfgA = build gattaca cfgA
    ∧ load (build gattaca cfgA).save = .ok (build gattaca cfgA) :=
  ⟨rfl, (save_load_roundtrip gattaca cfgA (build gattaca cfgA) rfl).1⟩

/-! ### Configured tables equal the reference model, claim C4 -/

/-- Rank is monotone in the prefix length. -/
theorem rank_mono (S : List Sym) (c : Nat) {i j : Nat} (h : i ≤ j) :
    rank S c i ≤ rank S c j := by
  unfold rank
  conv_rhs => rw [show j = i + (j - i) by omega]
  rw [List.take_add, List.countP_append]
  omega

/-- Counting a BWT segment completes the rank at its left end to the rank
at its right end. -/
theorem rank_seg (S : List Sym) (c : Nat) (a b : Nat) (h : a ≤ b) :
    (((bwt S).drop a).take (b - a)).countP (fun x => x == c) + rank S c a
      = rank S c b := by
  unfold rank
  conv_rhs => rw [show b = a + (b - a) by omega]
  rw [List.take_add, List.countP_append]
  omega

/-- Reading a mapped range list at an in-bounds index. -/
theorem getD_map_range (K : Nat) (f : Nat → Nat) (j : Nat) (h : j < K) :
    ((List.range K).map f).getD j 0 = f j := by
  rw [List.getD_eq_getElem?_getD, List.getElem?_map, List.getElem?_range h]
  rfl

/-- The stored symbol totals of a built index. -/
theorem build_cArr_getD (S : List Sym) (cfg : FmConfig) (c : Nat) (hc : c < 4) :
    (build S cfg).cArr.getD c 0 = cLess S c := by
  show ((List.range 4).map (fun c => cLess S c)).getD c 0 = cLess S c
  exact getD_map_range 4 _ c hc

/-- The hierarchical occurrence table of a built index answers exactly the
reference rank query, for any configuration with a positive fine interval
dividing the coarse interval. -/
theorem rankT_correct (S : List Sym) (cfg : FmConfig) (hl2 : 0 < cfg.l2)
    (hdvd : cfg.l2 ∣ cfg.l1) (c : Nat) (hc : c < 4) (i : Nat)
    (hi : i ≤ S.length + 1) :
    (build S cfg).rankT c i = rank S c i := by
  unfold FMIndex.rankT
  have e1 : (build S cfg).cfg.l1 = cfg.l1 := rfl
  have e2 : (build S cfg).cfg.l2 = cfg.l2 := rfl
  have e3 : (build S cfg).occ1 = (List.range (((S.length + 1) / cfg.l1 + 1) * 4)).map
      (fun j => rank S (j % 4) (j / 4 * cfg.l1)) := rfl
  have e4 : (build S cfg).occ2 = (List.range (((S.length + 1) / cfg.l2 + 1) * 4)).map
      (fun j => rank S (j % 4) (j / 4 * cfg.l2)
        - rank S (j % 4) (j / 4 * cfg.l2 / cfg.l1 * cfg.l1)) := rfl
  have e5 : (build S cfg).bwtArr = bwt S := rfl
  rw [e1, e2, e3, e4, e5]
  have hd1 : i / cfg.l1 ≤ (S.length + 1) / cfg.l1 := Nat.div_le_div_right hi
  have hd2 : i / cfg.l2 ≤ (S.length + 1) / cfg.l2 := Nat.div_le_div_right hi
  rw [getD_map_range _ _ _ (by omega)]
  rw [getD_map_range _ _ _ (by omega)]
  have hj1 : (i / cfg.l1 * 4 + c) % 4 = c := by omega
  have hj2 : (i / cfg.l1 * 4 + c) / 4 = i / cfg.l1 := by omega
  have hj3 : (i / cfg.l2 * 4 + c) % 4 = c := by omega
  have hj4 : (i / cfg.l2 * 4 + c) / 4 = i / cfg.l2 := by omega
  rw [hj1, hj2, hj3, hj4]
  obtain ⟨m, hm⟩ := hdvd
  have hdd : i / cfg.l2 * cfg.l2 / cfg.l1 = i / cfg.l1 := by
    rw [hm]
    rw [Nat.mul_comm (i / cfg.l2) cfg.l2]
    rw [Nat.mul_div_mul_left _ _ hl2]
    rw [Nat.div_div_eq_div_mul]
  have habar : rank S c (i / cfg.l2 * cfg.l2 / cfg.l1 * cfg.l1)
      = rank S c (i / cfg.l1 * cfg.l1) := by
    rw [hdd]
  rw [habar]
  have hb_le : i / cfg.l2 * cfg.l2 ≤ i := Nat.div_mul_le_self i cfg.l2
  have ha_le_b : i / cfg.l1 * cfg.l1 ≤ i / cfg.l2 * cfg.l2 := by
    calc i / cfg.l1 * cfg.l1 = i / cfg.l2 * cfg.l2 / cfg.l1 * cfg.l1 := by rw [hdd]
    _ ≤ i / cfg.l2 * cfg.l2 := Nat.div_mul_le_self _ _
  have hseg := rank_seg S c (i / cfg.l2 * cfg.l2) i hb_le
  have hr1 : rank S c (i / cfg.l1 * cfg.l1) ≤ rank S c (i / cfg.l2 * cfg.l2) :=
    rank_mono S c ha_le_b
  omega

/-- The backward-search loop over the built tables agrees with the
reference loop on pattern intervals. -/
theorem searchGoT_eq (S : List Sym) (cfg : FmConfig) (hl2 : 0 < cfg.l2)
    (hdvd : cfg.l2 ∣ cfg.l1) :
    ∀ (xs p : List Sym) (m : Nat),
      (build S cfg).searchGoT xs (cntLt S p) (cntLe S p) m
        = searchGo S xs (cntLt S p) (cntLe S p) m := by
  intro xs
  induction xs with
  | nil => intro p m; rfl
  | cons c rest ih =>
    intro p m
    have hb2 : (build S cfg).cArr.getD c.val 0 + (build S cfg).rankT c.val (cntLt S p)
        = cntLt S (c :: p) := by
      rw [build_cArr_getD S cfg c.val c.isLt]
      rw [rankT_correct S cfg hl2 hdvd c.val c.isLt _
        (le_trans (cntLt_le_cntLe S p) (cntLe_le S p))]
      rw [cntLt_cons]
    have he2 : (build S cfg).cArr.getD c.val 0 + (build S cfg).rankT c.val (cntLe S p)
        = cntLe S (c :: p) := by
      rw [build_cArr_getD S cfg c.val c.isLt]
      rw [rankT_correct S cfg hl2 hdvd c.val c.isLt _ (cntLe_le S p)]
      rw [cntLe_cons]
    rw [searchGo_cons]
    simp only [FMIndex.searchGoT]
    rw [hb2, he2]
    by_cases hstop : cntLe S (c :: p) ≤ cntLt S (c :: p)
    · rw [if_pos hstop, if_pos hstop]
    · rw [if_neg hstop, if_neg hstop]
      exact ih (c :: p) (m + 1)

/-- The stored lookup-table entries of a built index are the interval
bounds of the k-mer. -/
theorem build_lookup_getD (S : List Sym) (cfg : FmConfig) (t : List Sym)
    (hlen : t.length = cfg.lookupLen) :
    (build S cfg).lookup.getD (khash t * 2) 0 = cntLt S t
    ∧ (build S cfg).lookup.getD (khash t * 2 + 1) 0 = cntLe S t := by
  have hk : khash t < 4 ^ cfg.lookupLen := by
    rw [← hlen]
    exact khash_lt t
  have e6 : (build S cfg).lookup = (List.range (4 ^ cfg.lookupLen * 2)).map
      (fun j => if j % 2 = 0 then cntLt S (rhash (j / 2) cfg.lookupLen)
        else cntLe S (rhash (j / 2) cfg.lookupLen)) := rfl
  rw [e6]
  constructor
  · rw [getD_map_range _ _ _ (by omega)]
    rw [if_pos (by omega)]
    have hh : khash t * 2 / 2 = khash t := by omega
    rw [hh, ← hlen, rhash_khash]
  · rw [getD_map_range _ _ _ (by omega)]
    rw [if_neg (by omega)]
    have hh : (khash t * 2 + 1) / 2 = khash t := by omega
    rw [hh, ← hlen, rhash_khash]

/-- When no intermediate interval collapses, the backward-search loop over
a split query composes. -/
theorem searchGo_full (S : List Sym) :
    ∀ (xs ys p : List Sym) (m : Nat),
      (∀ k, k ≤ xs.length →
        cntLt S ((xs.take k).reverse ++ p) < cntLe S ((xs.take k).reverse ++ p)) →
      searchGo S (xs ++ ys) (cntLt S p) (cntLe S p) m
        = searchGo S ys (cntLt S (xs.reverse ++ p)) (cntLe S (xs.reverse ++ p))
            (m + xs.length) := by
  intro xs
  induction xs with
  | nil =>
    intro ys p m h
    simp
  | cons c rest ih =>
    intro ys p m h
    rw [List.cons_append, searchGo_cons]
    have h1 := h 1 (by simp)
    simp only [List.take_succ_cons, List.take_zero, List.reverse_cons,
      List.reverse_nil, List.nil_append, List.singleton_append] at h1
    rw [if_neg (by omega)]
    have harr : ∀ k, (rest.take k).reverse ++ (c :: p)
        = ((c :: rest).take (k + 1)).reverse ++ p := by
      intro k
      rw [List.take_succ_cons, List.reverse_cons, List.append_assoc,
        List.singleton_append]
    rw [ih ys (c :: p) (m + 1) ?hsh]
    case hsh =>
      intro k hk
      rw [harr k]
      exact h (k + 1) (by simpa using hk)
    have harr2 : rest.reverse ++ (c :: p) = (c :: rest).reverse ++ p := by
      rw [List.reverse_cons, List.append_assoc, List.singleton_append]
    rw [harr2]
    have hm2 : m + 1 + rest.length = m + (c :: rest).length := by
      simp only [List.length_cons]
      omega
    rw [hm2]

/-- Composition of the loop from the initial full interval. -/
theorem searchGo_full_init (S : List Sym) (xs ys : List Sym)
    (h : ∀ k, k ≤ xs.length →
      cntLt S ((xs.take k).reverse) < cntLe S ((xs.take k).reverse)) :
    searchGo S (xs ++ ys) 0 (S.length + 1) 0
      = searchGo S ys (cntLt S xs.reverse) (cntLe S xs.reverse) xs.length := by
  have hstep : searchGo S (xs ++ ys) (cntLt S []) (cntLe S []) 0
      = searchGo S ys (cntLt S (xs.reverse ++ [])) (cntLe S (xs.reverse ++ []))
          (0 + xs.length) := by
    refine searchGo_full S xs ys [] 0 ?_
    intro k hk
    rw [List.append_nil]
    exact h k hk
  rw [cntLt_nil, cntLe_nil, List.append_nil, Nat.zero_add] at hstep
  exact hstep

/-- The stored sampled suffix array entry of a built index. -/
theorem build_ssa_getD (S : List Sym) (cfg : FmConfig) (k : Nat)
    (hk : k < S.length + 1) :
    (build S cfg).ssa.getD k 0
      = (if ((sa S).getD k 0) % cfg.saIntv = 0 then (sa S).getD k 0 + 1 else 0) := by
  show ((List.range (S.length + 1)).map
    (fun k => if ((sa S).getD k 0) % cfg.saIntv = 0 then (sa S).getD k 0 + 1 else 0)).getD
      k 0 = _
  exact getD_map_range _ _ _ hk

/-- The stored BWT entry of a built index. -/
theorem build_bwtArr_getD (S : List Sym) (cfg : FmConfig) (k : Nat)
    (hk : k < (sa S).length) :
    (build S cfg).bwtArr.getD k 4 = bwtAt S ((sa S)[k]) := by
  show (bwt S).getD k 4 = _
  unfold bwt
  rw [List.getD_eq_getElem?_getD, List.getElem?_map, List.getElem?_eq_getElem hk]
  rfl

/-- Reading a list element as getD at an in-bounds index. -/
theorem getD_eq_getElem_zero (l : List Nat) (k : Nat) (hk : k < l.length) :
    l.getD k 0 = l[k] := by
  rw [List.getD_eq_getElem?_getD, List.getElem?_eq_getElem hk]
  rfl

/-- Decrementing a value whose remainder is nonzero decrements the
remainder. -/
theorem mod_pred {v d : Nat} (h : v % d ≠ 0) : 1 ≤ v ∧ (v - 1) % d = v % d - 1 := by
  rcases d with _ | d2
  · rw [Nat.mod_zero] at h
    rw [Nat.mod_zero, Nat.mod_zero]
    omega
  · have hd : 0 < d2 + 1 := by omega
    have hr := Nat.mod_lt v hd
    have hdm := Nat.div_add_mod v (d2 + 1)
    refine ⟨by omega, ?_⟩
    have hv1 : v - 1 = (d2 + 1) * (v / (d2 + 1)) + (v % (d2 + 1) - 1) := by omega
    rw [hv1, Nat.mul_add_mod]
    exact Nat.mod_eq_of_lt (by omega)

/-- LF-mapping in counting form: following the preceding symbol of the
suffix at row k yields the row index of the one-shorter-position
suffix. -/
theorem lf_row (S : List Sym) (k : Nat) (hk : k < (sa S).length)
    (hv : 0 < (sa S)[k]) :
    cLess S (symAt S ((sa S)[k] - 1)) + rank S (symAt S ((sa S)[k] - 1)) k
      = cntLt S (S.drop ((sa S)[k] - 1)) := by
  have hvle : (sa S)[k] < S.length + 1 := sa_mem_lt S (List.getElem_mem hk)
  have hvm : (sa S)[k] - 1 < S.length := by omega
  have hdropeq : S.drop ((sa S)[k] - 1) = S[(sa S)[k] - 1] :: S.drop ((sa S)[k]) := by
    have h2 := List.drop_eq_getElem_cons hvm
    have h3 : (sa S)[k] - 1 + 1 = (sa S)[k] := by omega
    rw [h3] at h2
    exact h2
  have hsym : symAt S ((sa S)[k] - 1) = (S[(sa S)[k] - 1]).val := by
    unfold symAt
    rw [List.getElem?_eq_getElem hvm]
  have hrow : cntLt S (S.drop ((sa S)[k])) = k := sa_row_cntLt S k hk
  rw [hsym, hdropeq, cntLt_cons, hrow]

/-- The walk-back loop of a built index returns the suffix-array value of
the row plus the accumulated step count, for any fuel beyond the row
value's remainder. -/
theorem walk_correct (S : List Sym) (cfg : FmConfig) (hl2 : 0 < cfg.l2)
    (hdvd : cfg.l2 ∣ cfg.l1) :
    ∀ (fuel k t : Nat) (hk : k < (sa S).length),
      (sa S)[k] % cfg.saIntv + 1 ≤ fuel →
      (build S cfg).walk fuel k t = some ((sa S)[k] + t) := by
  intro fuel
  induction fuel with
  | zero =>
    intro k t hk hf
    exact absurd hf (by omega)
  | succ f ih =>
    intro k t hk hf
    have hklen : k < S.length + 1 := by
      rw [← sa_length S]
      exact hk
    simp only [FMIndex.walk]
    rw [build_ssa_getD S cfg k hklen]
    rw [getD_eq_getElem_zero (sa S) k hk]
    by_cases hs : (sa S)[k] % cfg.saIntv = 0
    · rw [if_pos hs]
      rw [if_pos (by omega)]
      congr 1
    · rw [if_neg hs]
      rw [if_neg (by omega)]
      obtain ⟨hv1, hmp⟩ := mod_pred hs
      have hvle : (sa S)[k] < S.length + 1 := sa_mem_lt S (List.getElem_mem hk)
      have hlf : (build S cfg).lfT k = cntLt S (S.drop ((sa S)[k] - 1)) := by
        unfold FMIndex.lfT
        rw [build_bwtArr_getD S cfg k hk]
        have hbv : bwtAt S ((sa S)[k]) = symAt S ((sa S)[k] - 1) := by
          unfold bwtAt
          rw [if_neg (by omega)]
        rw [hbv]
        have hsymlt : symAt S ((sa S)[k] - 1) < 4 := by
          unfold symAt
          rw [List.getElem?_eq_getElem (by omega : (sa S)[k] - 1 < S.length)]
          exact (S[(sa S)[k] - 1]).isLt
        rw [if_pos hsymlt]
        rw [build_cArr_getD S cfg _ hsymlt]
        rw [rankT_correct S cfg hl2 hdvd _ hsymlt k (by omega)]
        exact lf_row S k hk (by omega)
      rw [hlf]
      have hnextmem : ((sa S)[k] - 1) ∈ sa S :=
        (sa_perm S).mem_iff.mpr (List.mem_range.mpr (by omega))
      obtain ⟨k2, hk2, hk2v⟩ := List.mem_iff_getElem.mp hnextmem
      have hrowidx : cntLt S (S.drop ((sa S)[k] - 1)) = k2 := by
        conv_lhs => rw [← hk2v]
        exact sa_row_cntLt S k2 hk2
      rw [hrowidx]
      rw [ih k2 (t + 1) hk2 (by rw [hk2v, hmp]; omega)]
      rw [hk2v]
      congr 1
      omega

/-- The configured get_offsets of a built index returns the suffix-array
slice of the interval, as in the reference model. -/
theorem get_offsets_build (S : List Sym) (cfg : FmConfig) (hl2 : 0 < cfg.l2)
    (hdvd : cfg.l2 ∣ cfg.l1) (b e : Nat) (he : e ≤ S.length + 1) :
    (build S cfg).get_offsets b e = ((sa S).take e).drop b := by
  unfold FMIndex.get_offsets
  have hn : (build S cfg).n = S.length := rfl
  rw [hn]
  refine List.ext_getElem ?_ ?_
  · rw [List.length_map, List.length_range', List.length_drop, List.length_take,
      sa_length]
    omega
  · intro j h1 h2
    rw [List.getElem_map, List.getElem_range']
    simp only [Nat.one_mul]
    have hjlt : j < e - b := by
      rw [List.length_map, List.length_range'] at h1
      exact h1
    have hrow : b + j < (sa S).length := by
      rw [sa_length]
      omega
    have hfuel : (sa S)[b + j] % cfg.saIntv + 1 ≤ S.length + 1 := by
      have hv := sa_mem_lt S (List.getElem_mem hrow)
      have hm := Nat.mod_le ((sa S)[b + j]) cfg.saIntv
      omega
    rw [walk_correct S cfg hl2 hdvd (S.length + 1) (b + j) 0 hrow hfuel]
    rw [Option.getD_some]
    have hslice : (((sa S).take e).drop b)[j] = (sa S)[b + j] := by
      rw [List.getElem_drop]
      exact List.getElem_take _
    rw [hslice]
    omega

/-- The configured get_range of a built index, lookup fast path included,
answers exactly as the reference backward search. -/
theorem get_range_build (S : List Sym) (cfg : FmConfig) (hl2 : 0 < cfg.l2)
    (hdvd : cfg.l2 ∣ cfg.l1) (q : List Sym) (mism : Nat) :
    (build S cfg).get_range q mism = get_range S q mism := by
  unfold FMIndex.get_range get_range
  by_cases hm : mism ≠ 0
  · rw [if_pos hm, if_pos hm]
  · rw [if_neg hm, if_neg hm]
    congr 1
    have hn : (build S cfg).n = S.length := rfl
    have hcfgL : (build S cfg).cfg.lookupLen = cfg.lookupLen := rfl
    rw [hn, hcfgL]
    have hplain : (build S cfg).searchGoT q.reverse 0 (S.length + 1) 0
        = searchGo S q.reverse 0 (S.length + 1) 0 := by
      have h := searchGoT_eq S cfg hl2 hdvd q.reverse [] 0
      rw [cntLt_nil, cntLe_nil] at h
      exact h
    by_cases hfast : 0 < cfg.lookupLen ∧ cfg.lookupLen ≤ q.length
    · rw [if_pos hfast]
      obtain ⟨hL0, hLle⟩ := hfast
      have htllen : (q.drop (q.length - cfg.lookupLen)).length = cfg.lookupLen := by
        rw [List.length_drop]
        omega
      obtain ⟨hlb, hle⟩ := build_lookup_getD S cfg (q.drop (q.length - cfg.lookupLen)) htllen
      show (if (build S cfg).lookup.getD (khash (q.drop (q.length - cfg.lookupLen)) * 2) 0
          < (build S cfg).lookup.getD (khash (q.drop (q.length - cfg.lookupLen)) * 2 + 1) 0
        then (build S cfg).searchGoT (q.take (q.length - cfg.lookupLen)).reverse
            ((build S cfg).lookup.getD (khash (q.drop (q.length - cfg.lookupLen)) * 2) 0)
            ((build S cfg).lookup.getD (khash (q.drop (q.length - cfg.lookupLen)) * 2 + 1) 0)
            cfg.lookupLen
        else (build S cfg).searchGoT q.reverse 0 (S.length + 1) 0)
        = searchGo S q.reverse 0 (S.length + 1) 0
      rw [hlb, hle]
      by_cases hne : cntLt S (q.drop (q.length - cfg.lookupLen))
          < cntLe S (q.drop (q.length - cfg.lookupLen))
      · rw [if_pos hne]
        have hocc : 0 < occCount S (q.drop (q.length - cfg.lookupLen)) := by
          have := cntLe_eq_add S (q.drop (q.length - cfg.lookupLen))
          omega
        have hqsplit : q.reverse
            = (q.drop (q.length - cfg.lookupLen)).reverse
              ++ (q.take (q.length - cfg.lookupLen)).reverse := by
          rw [← List.reverse_append, List.take_append_drop]
        have hfull := searchGo_full_init S (q.drop (q.length - cfg.lookupLen)).reverse
          (q.take (q.length - cfg.lookupLen)).reverse ?hall
        case hall =>
          intro k hk
          rw [revtake]
          have hposk := occCount_drop_pos S (q.drop (q.length - cfg.lookupLen)) hocc
            ((q.drop (q.length - cfg.lookupLen)).length - k)
          have hadd := cntLe_eq_add S
            ((q.drop (q.length - cfg.lookupLen)).drop
              ((q.drop (q.length - cfg.lookupLen)).length - k))
          omega
        rw [List.reverse_reverse, List.length_reverse, htllen] at hfull
        rw [← hqsplit] at hfull
        rw [hfull]
        exact (searchGoT_eq S cfg hl2 hdvd (q.take (q.length - cfg.lookupLen)).reverse
          (q.drop (q.length - cfg.lookupLen)) cfg.lookupLen).symm ▸ rfl
      · rw [if_neg hne]
        exact hplain
    · rw [if_neg hfast]
      exact hplain

/-- Claim C4: indexes built from the same sequence under any two
configurations (positive fine interval dividing the coarse interval, as
the spec requires of every configuration) return identical results for
every get_range query and for every in-range get_offsets query; the
configuration affects only performance, never answers. -/
theorem param_invariance (S : List Sym) (cfg cfg2 : FmConfig)
    (h1 : 0 < cfg.l2) (h2 : cfg.l2 ∣ cfg.l1)
    (h3 : 0 < cfg2.l2) (h4 : cfg2.l2 ∣ cfg2.l1) :
    (∀ q mism, (build S cfg).get_range q mism = (build S cfg2).get_range q mism)
    ∧ (∀ b e, e ≤ S.length + 1 →
        (build S cfg).get_offsets b e = (build S cfg2).get_offsets b e) := by
  constructor
  · intro q mism
    rw [get_range_build S cfg h1 h2 q mism, get_range_build S cfg2 h3 h4 q mism]
  · intro b e he
    rw [get_offsets_build S cfg h1 h2 b e he, get_offsets_build S cfg2 h3 h4 b e he]

/-- Witness for claim C4: the two concrete configurations agree on the
GATTACA index for the ATT query. -/
theorem param_invariance_witness :
    (0 < cfgA.l2 ∧ cfgA.l2 ∣ cfgA.l1 ∧ 0 < cfgB.l2 ∧ cfgB.l2 ∣ cfgB.l1)
    ∧ (build gattaca cfgA).get_range attQ 0 = (build gattaca cfgB).get_range attQ 0 :=
  ⟨by decide,
   (param_invariance gattaca cfgA cfgB (by decide) (by decide) (by decide)
      (by decide)).1 attQ 0⟩

end Biovoltron
